import Mathlib

/-!
# HardwareSerial (MSP430 USCI UART driver): ring buffers and their users

A shallow embedding of `hardware/msp430/cores/msp430/HardwareSerial.cpp`.

* `unsigned char` / `uint8_t` values are `Fin 256`.
* `unsigned int` indices (`head`, `tail`) are natural numbers; every arithmetic
  step on them is reduced modulo `2 ^ 16`, the width of `unsigned int` on the
  MSP430, exactly where the C expression wraps.
* The array `buffer[SERIAL_BUFFER_SIZE]` is a map from index to byte.  Slots
  `0 .. 15` are the array; an access at an index `≥ 16` is outside the array
  (undefined in C), so statements about stored bytes assume `head, tail < 16`.
* Every method is a state transformer returning its C result together with
  the state it leaves behind.  A busy-wait loop that cannot exit without an
  interrupt handler running returns `none`.
* Constants that come from the device headers (not part of this file of the
  repository) are the fields of `Target`.
-/

namespace Energia

/-- The C type `unsigned char` (also `uint8_t`). -/
abbrev uchar := Fin 256

/-- The macro `SERIAL_BUFFER_SIZE`. -/
def SERIAL_BUFFER_SIZE : Nat := 16

/-- Number of values of an `unsigned int` on the MSP430 (16 bits). -/
def UINT_RANGE : Nat := 65536

/-- Number of values of an `unsigned long` on the MSP430 (32 bits). -/
def ULONG_RANGE : Nat := 4294967296

/-- Addition of two `unsigned int` operands. -/
def uadd (a b : Nat) : Nat := (a + b) % UINT_RANGE

/-- Subtraction of two `unsigned int` operands (wraps below zero). -/
def usub (a b : Nat) : Nat := (a % UINT_RANGE + (UINT_RANGE - b % UINT_RANGE)) % UINT_RANGE

/-- Bitwise complement of an operand promoted to a 16-bit `int`, as a bit pattern. -/
def bnot (m : Nat) : Nat := 65535 ^^^ (m % UINT_RANGE)

/-- The struct `ring_buffer`. -/
structure ring_buffer where
  buffer : Nat → uchar
  head : Nat
  tail : Nat

/-- The initialiser `{ { 0 }, 0, 0 }` of `rx_buffer` and `tx_buffer`. -/
def ring_buffer.init : ring_buffer :=
  { buffer := fun _ => 0, head := 0, tail := 0 }

/-- The function `store_char`. -/
def store_char (c : uchar) (buffer : ring_buffer) : ring_buffer :=
  let i := uadd buffer.head 1 % SERIAL_BUFFER_SIZE
  if i ≠ buffer.tail then
    { buffer := Function.update buffer.buffer buffer.head c, head := i, tail := buffer.tail }
  else
    buffer

/-- Constants of the device headers used by the driver. -/
structure Target where
  F_CPU : Nat
  BIT1 : Nat
  BIT2 : Nat
  UCSWRST : Nat
  UCSSEL_2 : Nat
  UCOS16 : Nat
  UCA0RXIE : Nat
  UCA0TXIE : Nat

/-- The header values of the MSP430G2553 at 16 MHz, as an example target. -/
def msp430g2553 : Target :=
  { F_CPU := 16000000, BIT1 := 2, BIT2 := 4, UCSWRST := 1, UCSSEL_2 := 128,
    UCOS16 := 1, UCA0RXIE := 1, UCA0TXIE := 2 }

/-- The two global buffers (the object `Serial` points at exactly these) and the
peripheral registers the driver touches.  The registers are 8 bits wide.
`UCA0TXBUF` is the sequence of bytes written to the transmit register, oldest
first. -/
structure State where
  rx_buffer : ring_buffer
  tx_buffer : ring_buffer
  P1SEL : Nat
  P1SEL2 : Nat
  UCA0CTL0 : Nat
  UCA0CTL1 : Nat
  UCA0ABCTL : Nat
  UCA0BR0 : Nat
  UCA0BR1 : Nat
  UCA0MCTL : Nat
  UC0IE : Nat
  IE2 : Nat
  UCA0RXBUF : uchar
  UCA0TXBUF : List uchar

/-- The state at startup: both buffers as initialised, registers cleared, nothing
transmitted yet. -/
def State.init : State :=
  { rx_buffer := ring_buffer.init, tx_buffer := ring_buffer.init,
    P1SEL := 0, P1SEL2 := 0, UCA0CTL0 := 0, UCA0CTL1 := 0, UCA0ABCTL := 0,
    UCA0BR0 := 0, UCA0BR1 := 0, UCA0MCTL := 0, UC0IE := 0, IE2 := 0,
    UCA0RXBUF := 0, UCA0TXBUF := [] }

namespace HardwareSerial

/-- The method `HardwareSerial::begin`.  `baud` is an `unsigned long`, so both
quotients are taken in 32 bits; `divider` is an `unsigned int` and keeps the low 16
bits of its quotient; `mod` fits an `unsigned char` as computed.  The C quotient is
undefined for `baud = 0` (here it is 0), and `SMCLK << 4` stays inside a `long`
only for `F_CPU < 2 ^ 27`.  The pointer `SerialPtr` is not part of the state: the
only instance is `Serial`. -/
def begin (t : Target) (baud : Nat) (s : State) : State :=
  let SMCLK := t.F_CPU
  let baud := baud % ULONG_RANGE
  let oversampling : Nat := if SMCLK % ULONG_RANGE / baud ≥ 48 then 1 else 0
  let divider := ((SMCLK <<< 4) % ULONG_RANGE / baud) % UINT_RANGE
  let mod := if oversampling = 0 then ((divider &&& 0xF) + 1) &&& 0xE
             else ((divider &&& 0xf8) + 0x8) &&& 0xf0
  let divider := if oversampling = 0 then divider >>> 4 else divider >>> 8
  let RXD := t.BIT1
  let TXD := t.BIT2
  { s with
    P1SEL := (RXD + TXD) % 256
    P1SEL2 := (RXD + TXD) % 256
    UCA0CTL1 := ((t.UCSSEL_2 % 256) &&& bnot t.UCSWRST) % 256
    UCA0CTL0 := 0
    UCA0ABCTL := 0
    UCA0BR0 := divider % 256
    UCA0BR1 := (divider >>> 8) % 256
    UCA0MCTL := ((if oversampling ≠ 0 then t.UCOS16 else 0) ||| mod) % 256
    UC0IE := t.UCA0RXIE % 256 }

/-- The method `HardwareSerial::end`.  The wait loop exits only when the transmit
buffer is drained. -/
def end_ (s : State) : Option State :=
  if s.tx_buffer.head ≠ s.tx_buffer.tail then none
  else some { s with rx_buffer := { s.rx_buffer with head := s.rx_buffer.tail } }

/-- The method `HardwareSerial::available`. -/
def available (s : State) : Int × State :=
  (Int.ofNat (usub (uadd SERIAL_BUFFER_SIZE s.rx_buffer.head) s.rx_buffer.tail
      % SERIAL_BUFFER_SIZE), s)

/-- The method `HardwareSerial::peek`. -/
def peek (s : State) : Int × State :=
  if s.rx_buffer.head = s.rx_buffer.tail then (-1, s)
  else (Int.ofNat (s.rx_buffer.buffer s.rx_buffer.tail).val, s)

/-- The method `HardwareSerial::read`. -/
def read (s : State) : Int × State :=
  if s.rx_buffer.head = s.rx_buffer.tail then (-1, s)
  else
    let c := s.rx_buffer.buffer s.rx_buffer.tail
    (Int.ofNat c.val,
      { s with rx_buffer :=
          { s.rx_buffer with tail := uadd s.rx_buffer.tail 1 % SERIAL_BUFFER_SIZE } })

/-- The method `HardwareSerial::flush`. -/
def flush (s : State) : Option State :=
  if s.tx_buffer.head ≠ s.tx_buffer.tail then none else some s

/-- The method `HardwareSerial::write`.  With the transmit buffer full the wait
loop spins until a handler run frees a slot; on its own it does not return. -/
def write (t : Target) (c : uchar) (s : State) : Option (Nat × State) :=
  let i := uadd s.tx_buffer.head 1 % SERIAL_BUFFER_SIZE
  if i = s.tx_buffer.tail then none
  else
    some (1,
      { s with
        tx_buffer :=
          { buffer := Function.update s.tx_buffer.buffer s.tx_buffer.head c,
            head := i, tail := s.tx_buffer.tail }
        IE2 := (s.IE2 ||| t.UCA0TXIE) % 256 })

/-- The method `HardwareSerial::ProcessRXInt`. -/
def ProcessRXInt (s : State) : State :=
  let c := s.UCA0RXBUF
  { s with rx_buffer := store_char c s.rx_buffer }

/-- The method `HardwareSerial::ProcessTXInt`. -/
def ProcessTXInt (t : Target) (s : State) : State :=
  if s.tx_buffer.head = s.tx_buffer.tail then
    { s with IE2 := (s.IE2 &&& bnot t.UCA0TXIE) % 256 }
  else
    let c := s.tx_buffer.buffer s.tx_buffer.tail
    { s with
      tx_buffer := { s.tx_buffer with tail := uadd s.tx_buffer.tail 1 % SERIAL_BUFFER_SIZE }
      UCA0TXBUF := s.UCA0TXBUF ++ [c] }

end HardwareSerial

/-- Whether the transmit-empty interrupt enable bit of `IE2` is set. -/
def txie_enabled (t : Target) (s : State) : Bool :=
  s.IE2 &&& t.UCA0TXIE != 0

/-! ## Observation harness

Call sequences on one buffer, what each call shows to its caller, and the
bytes a buffer holds between `tail` and `head`. -/

/-- Both indices lie inside the array. -/
def ring_buffer.wf (b : ring_buffer) : Prop := b.head < 16 ∧ b.tail < 16

/-- The slots from `tail` up to (not including) `head`, wrapping modulo the buffer
size, oldest first. -/
def ring_buffer.queued (b : ring_buffer) : List uchar :=
  (List.range ((SERIAL_BUFFER_SIZE + b.head - b.tail) % SERIAL_BUFFER_SIZE)).map
    fun k => b.buffer ((b.tail + k) % SERIAL_BUFFER_SIZE)

/-- One call on the receive side: the handler's `store_char` on `rx_buffer`, or a
`read()`. -/
inductive RxOp where
  | push (c : uchar)
  | pop

/-- What a receive-side call shows: whether `store_char` advanced `head` (the byte
was accepted), or the value `read()` returned. -/
inductive RxEvent where
  | pushed (accepted : Bool)
  | popped (r : Int)
deriving DecidableEq

/-- Perform one receive-side call. -/
def rxStep (s : State) : RxOp → RxEvent × State
  | .push c =>
      let b := store_char c s.rx_buffer
      (.pushed (b.head != s.rx_buffer.head), { s with rx_buffer := b })
  | .pop =>
      let r := HardwareSerial.read s
      (.popped r.1, r.2)

/-- Perform a sequence of receive-side calls, collecting what each one shows. -/
def rxRun : List RxOp → State → List RxEvent × State
  | [], s => ([], s)
  | op :: ops, s =>
      let r := rxStep s op
      let rest := rxRun ops r.2
      (r.1 :: rest.1, rest.2)

/-- The bytes of the pushes that were accepted, in call order. -/
def acceptedBytes : List RxOp → List RxEvent → List uchar
  | .push c :: ops, .pushed true :: evs => c :: acceptedBytes ops evs
  | _ :: ops, _ :: evs => acceptedBytes ops evs
  | _, _ => []

/-- The values returned by the reads that did not return `-1`, in call order. -/
def returnedValues : List RxEvent → List Int
  | .popped r :: evs => if r = -1 then returnedValues evs else r :: returnedValues evs
  | _ :: evs => returnedValues evs
  | [] => []

/-- Bounded FIFO queue of capacity 15, as the specification words it: a push is
accepted exactly when fewer than 15 bytes are queued and then appends the byte;
a pop on the empty queue reports `-1`, otherwise it removes and returns the
oldest byte as an unsigned value. -/
def fifoStep (q : List uchar) : RxOp → RxEvent × List uchar
  | .push c => if q.length < 15 then (.pushed true, q ++ [c]) else (.pushed false, q)
  | .pop =>
      match q with
      | [] => (.popped (-1), [])
      | x :: xs => (.popped (Int.ofNat x.val), xs)

/-- A sequence of calls on the specification queue. -/
def fifoRun : List RxOp → List uchar → List RxEvent × List uchar
  | [], q => ([], q)
  | op :: ops, q =>
      let r := fifoStep q op
      let rest := fifoRun ops r.2
      (r.1 :: rest.1, rest.2)

/-- One step on the transmit side: a `write(c)` call, or a run of the
transmit-empty handler. -/
inductive TxOp where
  | write (c : uchar)
  | txint

/-- Perform one transmit-side step; `none` when `write` meets a full buffer. -/
def txStep (t : Target) (s : State) : TxOp → Option State
  | .write c =>
      match HardwareSerial.write t c s with
      | some r => some r.2
      | none => none
  | .txint => some (HardwareSerial.ProcessTXInt t s)

/-- Perform a sequence of transmit-side steps, every `write` completing. -/
def txRun (t : Target) : List TxOp → State → Option State
  | [], s => some s
  | op :: ops, s =>
      match txStep t s op with
      | some s1 => txRun t ops s1
      | none => none

/-- The bytes passed to `write`, in call order. -/
def writtenBytes : List TxOp → List uchar
  | .write c :: ops => c :: writtenBytes ops
  | .txint :: ops => writtenBytes ops
  | [] => []

/-! ## Sample states -/

/-- The startup state with the receive buffer empty at index `k`. -/
def rx_at (k : Nat) : State :=
  { State.init with rx_buffer := { buffer := fun _ => 0, head := k, tail := k } }

/-- A full buffer: `head = 3`, `tail = 4`. -/
def full_sample : ring_buffer := { buffer := fun _ => 7, head := 3, tail := 4 }

/-- A buffer with room whose `head` is about to wrap: `head = 15`, `tail = 3`. -/
def wrap_sample : ring_buffer := { buffer := fun _ => 7, head := 15, tail := 3 }

/-- A receive buffer holding the bytes 200 and 255, with `tail = 15` and `head = 1`. -/
def rx_sample : State :=
  { State.init with
    rx_buffer :=
      { buffer := Function.update (Function.update (fun _ => 0) 15 200) 0 255,
        head := 1, tail := 15 } }

/-- The state after `write(1)`, `write(2)` and one handler run from startup. -/
def tx_sample : State :=
  { State.init with
    tx_buffer :=
      { buffer := Function.update (Function.update (fun _ => 0) 0 1) 1 2, head := 2, tail := 1 }
    IE2 := 2
    UCA0TXBUF := [1] }

/-- The state after `write(65)` and two handler runs from startup. -/
def tx_idle_sample : State :=
  { State.init with
    tx_buffer := { buffer := Function.update (fun _ => 0) 0 65, head := 1, tail := 1 }
    IE2 := 0
    UCA0TXBUF := [65] }

/-! ## Line configuration, index bounds -/

/-- The value `begin` gives its local `oversampling`. -/
def begin_oversampling (t : Target) (baud : Nat) : Nat :=
  if t.F_CPU % ULONG_RANGE / (baud % ULONG_RANGE) ≥ 48 then 1 else 0

/-- The value `begin` holds in its local `divider` right after line 105: the 32-bit
quotient cut to the 16 bits of an `unsigned int`. -/
def begin_divider (t : Target) (baud : Nat) : Nat :=
  ((t.F_CPU <<< 4) % ULONG_RANGE / (baud % ULONG_RANGE)) % UINT_RANGE

/-- The MSP430G2553 header values with the clock constant set to `f`. -/
def g2553_at (f : Nat) : Target := { msp430g2553 with F_CPU := f }

/-- Both buffers have their indices inside the array. -/
def State.wf (s : State) : Prop := s.rx_buffer.wf ∧ s.tx_buffer.wf

/-! ## The handler under its enable bit -/

/-- The transmit-empty handler as the interrupt controller invokes it: it runs only
while the enable bit is set.  The flag tells whether the run took the branch that
clears the enable. -/
def txirq (t : Target) (s : State) : Bool × State :=
  if txie_enabled t s then
    (decide (s.tx_buffer.head = s.tx_buffer.tail), HardwareSerial.ProcessTXInt t s)
  else (false, s)

/-- Offer the handler `n` chances to run, counting the runs that took the disabling
branch. -/
def txirqRun (t : Target) : Nat → State → Nat × State
  | 0, s => (0, s)
  | n + 1, s =>
      let r := txirq t s
      let rest := txirqRun t n r.2
      ((if r.1 then 1 else 0) + rest.1, rest.2)

/-! ## Preemption of `write` by the transmit-empty handler

The main context runs `write` one access to shared memory at a time, in program
order; between any two of them the handler may run, and it runs to its end.  The
handler is allowed a run at every such point, whatever the enable bit says. -/

/-- Where the main context stands inside `write(c)`: each point lies just before one
access to memory the handler shares (`idle`: no call in progress). -/
inductive WritePc where
  | idle
  | test (c : uchar) (i : Nat)
  | store (c : uchar) (i : Nat)
  | publish (c : uchar) (i : Nat)
  | enable
  | enable_store (v : Nat)

/-- The driver state, the point the main context has reached, and the bytes it has
still to pass to `write`. -/
structure Config where
  s : State
  pc : WritePc
  todo : List uchar

/-- The main context pushing `bytes` one `write` call after the other, from startup. -/
def Config.start (bytes : List uchar) : Config :=
  { s := State.init, pc := WritePc.idle, todo := bytes }

/-- One memory access of the main context, in the order `write` makes them: read
`head` and compute `i`; read `tail` for the loop test (staying on the test while the
buffer is full); store the byte at `buffer[head]`; store `head`; read `IE2`; write
`IE2` back with the enable bit set. -/
def mainStep (t : Target) (k : Config) : Config :=
  match k.pc with
  | .idle =>
      match k.todo with
      | [] => k
      | c :: rest =>
          { s := k.s, pc := .test c (uadd k.s.tx_buffer.head 1 % SERIAL_BUFFER_SIZE),
            todo := rest }
  | .test c i => if i = k.s.tx_buffer.tail then k else { k with pc := .store c i }
  | .store c i =>
      { k with
        s := { k.s with
          tx_buffer := { k.s.tx_buffer with
            buffer := Function.update k.s.tx_buffer.buffer k.s.tx_buffer.head c } }
        pc := .publish c i }
  | .publish _ i =>
      { k with
        s := { k.s with tx_buffer := { k.s.tx_buffer with head := i } }
        pc := .enable }
  | .enable => { k with pc := .enable_store k.s.IE2 }
  | .enable_store v =>
      { k with s := { k.s with IE2 := (v ||| t.UCA0TXIE) % 256 }, pc := .idle }

/-- A run of the transmit-empty handler, preempting the main context where it stands. -/
def handlerStep (t : Target) (k : Config) : Config :=
  { k with s := HardwareSerial.ProcessTXInt t k.s }

/-- Who takes the next step. -/
inductive Actor where
  | main
  | handler

/-- One step of the chosen actor. -/
def preemptStep (t : Target) (k : Config) : Actor → Config
  | .main => mainStep t k
  | .handler => handlerStep t k

/-- Run a schedule. -/
def preemptRun (t : Target) : List Actor → Config → Config
  | [], k => k
  | a :: rest, k => preemptRun t rest (preemptStep t k a)

/-- The schedule that alternates one main-context access and one handler run. -/
def roundRobin : Nat → List Actor
  | 0 => []
  | n + 1 => Actor.main :: Actor.handler :: roundRobin n

/-- The byte of the call in progress, while `head` has not been stored yet. -/
def pending : WritePc → List uchar
  | .test c _ => [c]
  | .store c _ => [c]
  | .publish c _ => [c]
  | _ => []

/-- Bytes sent, then bytes queued, then the byte in flight, then the bytes to come. -/
def Config.stream (k : Config) : List uchar :=
  k.s.UCA0TXBUF ++ k.s.tx_buffer.queued ++ pending k.pc ++ k.todo

/-- What the main context knows at each point of `write`. -/
def Config.inv (k : Config) : Prop :=
  k.s.tx_buffer.wf ∧
    match k.pc with
    | .test _ i => i = (k.s.tx_buffer.head + 1) % 16
    | .store _ i => i = (k.s.tx_buffer.head + 1) % 16 ∧ i ≠ k.s.tx_buffer.tail
    | .publish c i =>
        i = (k.s.tx_buffer.head + 1) % 16 ∧ i ≠ k.s.tx_buffer.tail ∧
          k.s.tx_buffer.buffer k.s.tx_buffer.head = c
    | _ => True

/-- Accesses the main context has left in the current call, counting the handler run
that will send the byte. -/
def pcRank : WritePc → Nat
  | .idle => 0
  | .test _ _ => 6
  | .store _ _ => 5
  | .publish _ _ => 4
  | .enable => 2
  | .enable_store _ => 1

/-- Work left: seven steps for each byte to come, the rest of the current call, and
one handler run for each queued byte. -/
def Config.work (k : Config) : Nat :=
  7 * k.todo.length + pcRank k.pc + k.s.tx_buffer.queued.length

/-! ## Index arithmetic and the queued bytes -/

/-- The 16-bit wrap of `head + 1` disappears under the reduction modulo 16. -/
theorem next_index (h : Nat) : uadd h 1 % SERIAL_BUFFER_SIZE = (h + 1) % 16 := by
  simp only [uadd, UINT_RANGE, SERIAL_BUFFER_SIZE]; omega

/-- On a full buffer `store_char` does nothing. -/
theorem store_char_full (c : uchar) (b : ring_buffer) (h : (b.head + 1) % 16 = b.tail) :
    store_char c b = b := by
  simp [store_char, next_index, h]

/-- On a buffer with room `store_char` stores at `head` and advances it. -/
theorem store_char_not_full (c : uchar) (b : ring_buffer) (h : (b.head + 1) % 16 ≠ b.tail) :
    store_char c b =
      { buffer := Function.update b.buffer b.head c, head := (b.head + 1) % 16,
        tail := b.tail } := by
  simp [store_char, next_index, h]

/-- The number of queued bytes. -/
theorem queued_length (b : ring_buffer) : b.queued.length = (16 + b.head - b.tail) % 16 := by
  simp [ring_buffer.queued, SERIAL_BUFFER_SIZE]

/-- An accepted byte goes to the back of the queued bytes. -/
theorem queued_store_char (c : uchar) (b : ring_buffer) (hw : b.wf)
    (h : (b.head + 1) % 16 ≠ b.tail) : (store_char c b).queued = b.queued ++ [c] := by
  obtain ⟨hh, ht⟩ := hw
  rw [store_char_not_full c b h]
  simp only [ring_buffer.queued, SERIAL_BUFFER_SIZE]
  have e : (16 + (b.head + 1) % 16 - b.tail) % 16 = (16 + b.head - b.tail) % 16 + 1 := by omega
  rw [e, List.range_succ, List.map_append]
  congr 1
  · apply List.map_congr_left
    intro k hk
    rw [List.mem_range] at hk
    rw [Function.update_noteq]
    omega
  · have e2 : (b.tail + (16 + b.head - b.tail) % 16) % 16 = b.head := by omega
    simp only [List.map_cons, List.map_nil]
    rw [e2, Function.update_same]

/-- The slot at `tail` is the front of the queued bytes. -/
theorem queued_pop (b : ring_buffer) (hw : b.wf) (h : b.head ≠ b.tail) :
    b.queued = b.buffer b.tail :: ring_buffer.queued { b with tail := (b.tail + 1) % 16 } := by
  obtain ⟨hh, ht⟩ := hw
  simp only [ring_buffer.queued, SERIAL_BUFFER_SIZE]
  have e : (16 + b.head - b.tail) % 16 = (16 + b.head - (b.tail + 1) % 16) % 16 + 1 := by omega
  rw [e, List.range_succ_eq_map, List.map_cons, List.map_map]
  congr 1
  · simp [Nat.mod_eq_of_lt ht]
  · apply List.map_congr_left
    intro k _
    simp only [Function.comp]
    congr 1
    omega

/-- Nothing is queued when `head = tail`. -/
theorem queued_empty (b : ring_buffer) (h : b.head = b.tail) : b.queued = [] := by
  simp [ring_buffer.queued, SERIAL_BUFFER_SIZE, h]

/-- With the indices in range, nothing queued means `head = tail`. -/
theorem head_eq_tail_of_queued_nil (b : ring_buffer) (hw : b.wf) (h : b.queued = []) :
    b.head = b.tail := by
  obtain ⟨hh, ht⟩ := hw
  have := queued_length b
  rw [h] at this
  simp at this
  omega

/-- The full test of `store_char` is the test that 15 bytes are queued. -/
theorem full_iff_length (b : ring_buffer) (hw : b.wf) :
    (b.head + 1) % 16 = b.tail ↔ ¬ b.queued.length < 15 := by
  obtain ⟨hh, ht⟩ := hw
  rw [queued_length]; omega

/-- The initial buffer has its indices in range. -/
theorem ring_buffer_init_wf : ring_buffer.init.wf := ⟨by decide, by decide⟩

/-- With the indices in range, `available()` is the number of queued bytes. -/
theorem available_eq_length (s : State) (hw : s.rx_buffer.wf) :
    (HardwareSerial.available s).1 = (s.rx_buffer.queued.length : Int) := by
  obtain ⟨hh, ht⟩ := hw
  rw [queued_length]
  simp only [HardwareSerial.available, usub, uadd, UINT_RANGE, SERIAL_BUFFER_SIZE]
  congr 1
  omega

/-! ## The receive side simulates the bounded queue -/

/-- One receive-side call shows what the specification queue shows and keeps the
queued bytes in step with it. -/
theorem rxStep_sim (s : State) (hw : s.rx_buffer.wf) (op : RxOp) :
    (rxStep s op).1 = (fifoStep s.rx_buffer.queued op).1 ∧
      (rxStep s op).2.rx_buffer.queued = (fifoStep s.rx_buffer.queued op).2 ∧
      (rxStep s op).2.rx_buffer.wf := by
  have hw2 := hw
  obtain ⟨hh, ht⟩ := hw2
  cases op with
  | push c =>
    by_cases hf : (s.rx_buffer.head + 1) % 16 = s.rx_buffer.tail
    · have hl := (full_iff_length _ hw).1 hf
      simp [rxStep, fifoStep, store_char_full c _ hf, hl, hw]
    · have hl : s.rx_buffer.queued.length < 15 := by
        by_contra hc; exact hf ((full_iff_length _ hw).2 hc)
      have hne : (s.rx_buffer.head + 1) % 16 ≠ s.rx_buffer.head := by omega
      simp only [rxStep, fifoStep, hl, if_true, queued_store_char c _ hw hf]
      rw [store_char_not_full c _ hf]
      refine ⟨by simp [hne], trivial, ?_, ht⟩
      show (s.rx_buffer.head + 1) % 16 < 16
      omega
  | pop =>
    by_cases he : s.rx_buffer.head = s.rx_buffer.tail
    · simp [rxStep, fifoStep, HardwareSerial.read, he, queued_empty _ he, ring_buffer.wf, ht]
    · rw [queued_pop _ hw he]
      simp only [rxStep, fifoStep, HardwareSerial.read, he, if_false, next_index]
      refine ⟨trivial, trivial, hh, ?_⟩
      show (s.rx_buffer.tail + 1) % 16 < 16
      omega

/-- A sequence of receive-side calls shows what the specification queue shows. -/
theorem rxRun_sim (ops : List RxOp) : ∀ (s : State), s.rx_buffer.wf →
    (rxRun ops s).1 = (fifoRun ops s.rx_buffer.queued).1 ∧
      (rxRun ops s).2.rx_buffer.queued = (fifoRun ops s.rx_buffer.queued).2 ∧
      (rxRun ops s).2.rx_buffer.wf := by
  induction ops with
  | nil => intro s hw; exact ⟨rfl, rfl, hw⟩
  | cons op ops ih =>
    intro s hw
    obtain ⟨h1, h2, h3⟩ := rxStep_sim s hw op
    obtain ⟨i1, i2, i3⟩ := ih _ h3
    simp only [rxRun, fifoRun]
    rw [h1, ← h2]
    exact ⟨by rw [i1], i2, i3⟩

/-- Running two call sequences one after the other. -/
theorem rxRun_append (a b : List RxOp) : ∀ (s : State),
    rxRun (a ++ b) s =
      ((rxRun a s).1 ++ (rxRun b (rxRun a s).2).1, (rxRun b (rxRun a s).2).2) := by
  induction a with
  | nil => intro s; simp [rxRun]
  | cons op a ih => intro s; simp [rxRun, ih]

/-- Bookkeeping on the specification queue: what was queued at the start followed by
what was accepted is what was returned followed by what is still queued. -/
theorem fifoRun_bytes (ops : List RxOp) : ∀ (q : List uchar),
    (q ++ acceptedBytes ops (fifoRun ops q).1).map (fun c => Int.ofNat c.val) =
      returnedValues (fifoRun ops q).1 ++ (fifoRun ops q).2.map (fun c => Int.ofNat c.val) := by
  induction ops with
  | nil => intro q; simp [fifoRun, acceptedBytes, returnedValues]
  | cons op ops ih =>
    intro q
    cases op with
    | push c =>
      by_cases hl : q.length < 15
      · have := ih (q ++ [c])
        simpa [fifoRun, fifoStep, hl, acceptedBytes, returnedValues] using this
      · have := ih q
        simpa [fifoRun, fifoStep, hl, acceptedBytes, returnedValues] using this
    | pop =>
      cases q with
      | nil =>
        have := ih []
        simpa [fifoRun, fifoStep, acceptedBytes, returnedValues] using this
      | cons x xs =>
        have := ih xs
        simpa [fifoRun, fifoStep, acceptedBytes, returnedValues] using this

/-- Pushes that fit are all accepted by the specification queue. -/
theorem fifoRun_pushes (bytes : List uchar) : ∀ (q : List uchar),
    q.length + bytes.length ≤ 15 →
      fifoRun (bytes.map RxOp.push) q =
        (List.replicate bytes.length (RxEvent.pushed true), q ++ bytes) := by
  induction bytes with
  | nil => intro q _; simp [fifoRun]
  | cons c cs ih =>
    intro q h
    simp only [List.length_cons] at h
    have hl : q.length < 15 := by omega
    have := ih (q ++ [c]) (by simp; omega)
    simp [fifoRun, fifoStep, hl, this, List.replicate_succ]

/-- Popping as many times as bytes are queued returns them all, oldest first. -/
theorem fifoRun_pops (q : List uchar) :
    fifoRun (List.replicate q.length RxOp.pop) q =
      (q.map fun c => RxEvent.popped (Int.ofNat c.val), []) := by
  induction q with
  | nil => simp [fifoRun]
  | cons c cs ih => simp [fifoRun, fifoStep, List.replicate_succ, ih]

/-! ## The transmit side -/

/-- Setting the bits of a mask inside an 8-bit register leaves them set. -/
theorem or_mask_and (x m : Nat) (hm : m < 256) : ((x ||| m) % 256) &&& m = m := by
  apply Nat.eq_of_testBit_eq
  intro i
  have e : (256 : Nat) = 2 ^ 8 := by norm_num
  rw [Nat.testBit_and, e, Nat.testBit_mod_two_pow, Nat.testBit_or]
  by_cases hi : i < 8
  · cases hb : m.testBit i <;> simp [hi, hb]
  · have : m.testBit i = false := by
      apply Nat.testBit_lt_two_pow
      calc m < 2 ^ 8 := by omega
        _ ≤ 2 ^ i := Nat.pow_le_pow_right (by norm_num) (by omega)
    simp [this]

/-- Clearing the bits of a mask inside an 8-bit register leaves them clear. -/
theorem andnot_mask_and (x m : Nat) : ((x &&& bnot m) % 256) &&& m = 0 := by
  apply Nat.eq_of_testBit_eq
  intro i
  have e : (256 : Nat) = 2 ^ 8 := by norm_num
  have e2 : (65535 : Nat) = 2 ^ 16 - 1 := by norm_num
  have e3 : (65536 : Nat) = 2 ^ 16 := by norm_num
  rw [Nat.testBit_and, e, Nat.testBit_mod_two_pow, Nat.testBit_and, bnot, UINT_RANGE,
    Nat.testBit_xor, e2, e3, Nat.testBit_mod_two_pow, Nat.testBit_two_pow_sub_one]
  by_cases hi : i < 8
  · have : i < 16 := by omega
    cases hb : m.testBit i <;> simp [hi, this, hb]
  · simp [hi]

/-- With room in the transmit buffer `write` returns 1, having pushed the byte and
set the interrupt enable. -/
theorem write_not_full (t : Target) (c : uchar) (s : State)
    (h : (s.tx_buffer.head + 1) % 16 ≠ s.tx_buffer.tail) :
    HardwareSerial.write t c s =
      some (1, { s with tx_buffer := store_char c s.tx_buffer,
                        IE2 := (s.IE2 ||| t.UCA0TXIE) % 256 }) := by
  rw [store_char_not_full c _ h]
  simp [HardwareSerial.write, next_index, h]

/-- With the transmit buffer full `write` does not return on its own. -/
theorem write_full (t : Target) (c : uchar) (s : State)
    (h : (s.tx_buffer.head + 1) % 16 = s.tx_buffer.tail) :
    HardwareSerial.write t c s = none := by
  simp [HardwareSerial.write, next_index, h]

/-- The bytes of a call sequence, split at its first call. -/
theorem writtenBytes_cons (op : TxOp) (ops : List TxOp) :
    writtenBytes (op :: ops) = writtenBytes [op] ++ writtenBytes ops := by
  cases op <;> simp [writtenBytes]

/-- One transmit-side step keeps the indices in range and extends the stream of
sent-then-queued bytes by the byte written, if any. -/
theorem txStep_stream (t : Target) (s s1 : State) (op : TxOp) (hw : s.tx_buffer.wf)
    (h : txStep t s op = some s1) :
    s1.tx_buffer.wf ∧
      s1.UCA0TXBUF ++ s1.tx_buffer.queued =
        s.UCA0TXBUF ++ s.tx_buffer.queued ++ writtenBytes [op] := by
  have hw2 := hw
  obtain ⟨hh, ht⟩ := hw2
  cases op with
  | write c =>
    by_cases hf : (s.tx_buffer.head + 1) % 16 = s.tx_buffer.tail
    · simp [txStep, write_full t c s hf] at h
    · simp only [txStep, write_not_full t c s hf, Option.some.injEq] at h
      subst h
      simp only [writtenBytes, queued_store_char c _ hw hf, List.append_assoc]
      refine ⟨?_, trivial⟩
      rw [store_char_not_full c _ hf]
      exact ⟨Nat.mod_lt _ (by norm_num), ht⟩
  | txint =>
    simp only [txStep, Option.some.injEq] at h
    subst h
    by_cases he : s.tx_buffer.head = s.tx_buffer.tail
    · simp [HardwareSerial.ProcessTXInt, he, writtenBytes, ring_buffer.wf, ht]
    · simp only [HardwareSerial.ProcessTXInt, he, if_false, next_index, writtenBytes,
        List.append_nil]
      rw [queued_pop _ hw he]
      refine ⟨⟨hh, Nat.mod_lt _ (by norm_num)⟩, by simp⟩

/-- Along any completed transmit-side sequence, sent-then-queued grows by exactly the
bytes written. -/
theorem txRun_stream (t : Target) (ops : List TxOp) : ∀ (s0 s : State), s0.tx_buffer.wf →
    txRun t ops s0 = some s →
      s.tx_buffer.wf ∧
        s.UCA0TXBUF ++ s.tx_buffer.queued =
          s0.UCA0TXBUF ++ s0.tx_buffer.queued ++ writtenBytes ops := by
  induction ops with
  | nil =>
    intro s0 s hw h
    simp only [txRun, Option.some.injEq] at h
    subst h
    simp [writtenBytes, hw]
  | cons op ops ih =>
    intro s0 s hw h
    simp only [txRun] at h
    cases h1 : txStep t s0 op with
    | none => simp [h1] at h
    | some s1 =>
      rw [h1] at h
      obtain ⟨w1, e1⟩ := txStep_stream t s0 s1 op hw h1
      obtain ⟨w2, e2⟩ := ih s1 s w1 h
      refine ⟨w2, ?_⟩
      rw [e2, e1, writtenBytes_cons op ops]
      simp [List.append_assoc]

/-- One transmit-side step keeps: queued data implies the interrupt is enabled. -/
theorem txStep_enabled (t : Target) (hm0 : 0 < t.UCA0TXIE) (hm : t.UCA0TXIE < 256)
    (s s1 : State) (op : TxOp)
    (hinv : s.tx_buffer.head ≠ s.tx_buffer.tail → txie_enabled t s = true)
    (h : txStep t s op = some s1) :
    s1.tx_buffer.head ≠ s1.tx_buffer.tail → txie_enabled t s1 = true := by
  cases op with
  | write c =>
    by_cases hf : (s.tx_buffer.head + 1) % 16 = s.tx_buffer.tail
    · simp [txStep, write_full t c s hf] at h
    · simp only [txStep, write_not_full t c s hf, Option.some.injEq] at h
      subst h
      intro _
      show ((s.IE2 ||| t.UCA0TXIE) % 256 &&& t.UCA0TXIE != 0) = true
      rw [or_mask_and _ _ hm]
      simp; omega
  | txint =>
    simp only [txStep, Option.some.injEq] at h
    subst h
    by_cases he : s.tx_buffer.head = s.tx_buffer.tail
    · simp [HardwareSerial.ProcessTXInt, he]
    · intro _
      have := hinv he
      simpa [HardwareSerial.ProcessTXInt, he, txie_enabled] using this

/-- Along any completed transmit-side sequence: queued data implies the interrupt is
enabled. -/
theorem txRun_enabled (t : Target) (hm0 : 0 < t.UCA0TXIE) (hm : t.UCA0TXIE < 256)
    (ops : List TxOp) : ∀ (s0 s : State),
    (s0.tx_buffer.head ≠ s0.tx_buffer.tail → txie_enabled t s0 = true) →
    txRun t ops s0 = some s →
      (s.tx_buffer.head ≠ s.tx_buffer.tail → txie_enabled t s = true) := by
  induction ops with
  | nil =>
    intro s0 s hinv h
    simp only [txRun, Option.some.injEq] at h
    subst h
    exact hinv
  | cons op ops ih =>
    intro s0 s hinv h
    simp only [txRun] at h
    cases h1 : txStep t s0 op with
    | none => simp [h1] at h
    | some s1 =>
      rw [h1] at h
      exact ih s1 s (txStep_enabled t hm0 hm s0 s1 op hinv h1) h

/-! ## Line configuration and index bounds: lemmas -/

/-- The value `begin` writes to `UCA0MCTL`, in terms of its two locals. -/
theorem begin_UCA0MCTL (t : Target) (baud : Nat) (s : State) :
    (HardwareSerial.begin t baud s).UCA0MCTL =
      ((if begin_oversampling t baud ≠ 0 then t.UCOS16 else 0) |||
        (if begin_oversampling t baud = 0 then ((begin_divider t baud &&& 0xF) + 1) &&& 0xE
          else ((begin_divider t baud &&& 0xf8) + 0x8) &&& 0xf0)) % 256 := rfl

/-- The value `begin` writes to `UCA0BR0`, in terms of its two locals. -/
theorem begin_UCA0BR0 (t : Target) (baud : Nat) (s : State) :
    (HardwareSerial.begin t baud s).UCA0BR0 =
      (if begin_oversampling t baud = 0 then begin_divider t baud >>> 4
        else begin_divider t baud >>> 8) % 256 := rfl

/-- The value `begin` writes to `UCA0BR1`, in terms of its two locals. -/
theorem begin_UCA0BR1 (t : Target) (baud : Nat) (s : State) :
    (HardwareSerial.begin t baud s).UCA0BR1 =
      ((if begin_oversampling t baud = 0 then begin_divider t baud >>> 4
        else begin_divider t baud >>> 8) >>> 8) % 256 := rfl

/-- A value masked with `0xE` has bit 0 clear. -/
theorem mod_even_and_one (x : Nat) : ((x &&& 0xE) % 256) &&& 1 = 0 := by
  have h : x &&& 0xE < 256 := lt_of_le_of_lt Nat.and_le_right (by norm_num)
  rw [Nat.mod_eq_of_lt h, Nat.and_assoc]
  simp

/-- With one byte queued at index 0, `available()` is 1, `read()` returns the byte and
the next `read()` returns `-1`. -/
theorem one_byte_received (s : State) (c : uchar) (hh : s.rx_buffer.head = 1)
    (ht : s.rx_buffer.tail = 0) (hc : s.rx_buffer.buffer 0 = c) :
    (HardwareSerial.available s).1 = 1 ∧
      (HardwareSerial.read (HardwareSerial.available s).2).1 = Int.ofNat c.val ∧
      (HardwareSerial.read (HardwareSerial.read (HardwareSerial.available s).2).2).1 = -1 := by
  refine ⟨?_, ?_, ?_⟩
  · simp [HardwareSerial.available, hh, ht, usub, uadd, UINT_RANGE, SERIAL_BUFFER_SIZE]
  · simp [HardwareSerial.available, HardwareSerial.read, hh, ht, hc]
  · simp [HardwareSerial.available, HardwareSerial.read, hh, ht, uadd, UINT_RANGE,
      SERIAL_BUFFER_SIZE]

/-- The indices stay in range under `store_char`. -/
theorem store_char_wf (c : uchar) (b : ring_buffer) (hw : b.wf) : (store_char c b).wf := by
  by_cases hf : (b.head + 1) % 16 = b.tail
  · rw [store_char_full c b hf]; exact hw
  · rw [store_char_not_full c b hf]; exact ⟨Nat.mod_lt _ (by norm_num), hw.2⟩

/-- The transmit indices stay in range under `ProcessTXInt`. -/
theorem ProcessTXInt_wf (t : Target) (s : State) (hw : s.tx_buffer.wf) :
    (HardwareSerial.ProcessTXInt t s).tx_buffer.wf := by
  by_cases he : s.tx_buffer.head = s.tx_buffer.tail
  · simpa [HardwareSerial.ProcessTXInt, he] using hw
  · simp only [HardwareSerial.ProcessTXInt, he, if_false, next_index]
    exact ⟨hw.1, Nat.mod_lt _ (by norm_num)⟩

/-! ## The handler under its enable bit: lemmas -/

/-- With the enable bit clear the handler is not invoked. -/
theorem txirq_disabled (t : Target) (s : State) (h : txie_enabled t s = false) :
    txirq t s = (false, s) := by
  simp [txirq, h]

/-- With the enable bit clear no number of chances runs the handler. -/
theorem txirqRun_disabled (t : Target) (n : Nat) : ∀ s : State, txie_enabled t s = false →
    txirqRun t n s = (0, s) := by
  induction n with
  | zero => intro s _; rfl
  | succ n ih =>
    intro s h
    simp [txirqRun, txirq_disabled t s h, ih s h]

/-- On an empty transmit buffer `ProcessTXInt` clears the enable bit. -/
theorem ProcessTXInt_empty_disables (t : Target) (s : State)
    (he : s.tx_buffer.head = s.tx_buffer.tail) :
    txie_enabled t (HardwareSerial.ProcessTXInt t s) = false := by
  simp only [HardwareSerial.ProcessTXInt, he, if_true, txie_enabled]
  rw [andnot_mask_and]
  rfl

/-- Given more chances than bytes queued, the enabled handler sends the queued bytes and
then takes the disabling branch once. -/
theorem txirqRun_drains (t : Target) (n : Nat) : ∀ s : State, s.tx_buffer.wf →
    txie_enabled t s = true → s.tx_buffer.queued.length < n →
      (txirqRun t n s).1 = 1 ∧ txie_enabled t (txirqRun t n s).2 = false ∧
        (txirqRun t n s).2.tx_buffer.head = (txirqRun t n s).2.tx_buffer.tail := by
  induction n with
  | zero => intro s _ _ h; exact absurd h (Nat.not_lt_zero _)
  | succ n ih =>
    intro s hw hen hlen
    by_cases he : s.tx_buffer.head = s.tx_buffer.tail
    · have hd := ProcessTXInt_empty_disables t s he
      have hr := txirqRun_disabled t n _ hd
      simp only [txirqRun, txirq, hen, if_true, he, decide_True, hr]
      refine ⟨trivial, hd, ?_⟩
      simp [HardwareSerial.ProcessTXInt, he]
    · have hq := queued_pop _ hw he
      have hw1 := ProcessTXInt_wf t s hw
      have hen1 : txie_enabled t (HardwareSerial.ProcessTXInt t s) = true := by
        simpa [HardwareSerial.ProcessTXInt, he, txie_enabled] using hen
      have hlen1 : (HardwareSerial.ProcessTXInt t s).tx_buffer.queued.length < n := by
        have e : (HardwareSerial.ProcessTXInt t s).tx_buffer =
            { s.tx_buffer with tail := (s.tx_buffer.tail + 1) % 16 } := by
          simp [HardwareSerial.ProcessTXInt, he, next_index]
        rw [e]
        rw [hq, List.length_cons] at hlen
        exact Nat.lt_of_succ_lt_succ hlen
      obtain ⟨i1, i2, i3⟩ := ih _ hw1 hen1 hlen1
      simp only [txirqRun, txirq, hen, if_true, he, decide_False]
      exact ⟨by simpa using i1, i2, i3⟩

/-! ## Preemption: invariant and progress -/

/-- Storing into the slot at `head` does not touch the queued bytes. -/
theorem queued_store_slot (c : uchar) (b : ring_buffer) (hw : b.wf) :
    ring_buffer.queued { b with buffer := Function.update b.buffer b.head c } = b.queued := by
  obtain ⟨hh, ht⟩ := hw
  simp only [ring_buffer.queued, SERIAL_BUFFER_SIZE]
  apply List.map_congr_left
  intro k hk
  rw [List.mem_range] at hk
  rw [Function.update_noteq]
  omega

/-- Advancing `head` adds the byte in the slot at the old `head` to the queued bytes. -/
theorem queued_publish (b : ring_buffer) (hw : b.wf) (h : (b.head + 1) % 16 ≠ b.tail) :
    ring_buffer.queued { b with head := (b.head + 1) % 16 } = b.queued ++ [b.buffer b.head] := by
  have e := queued_store_char (b.buffer b.head) b hw h
  rw [store_char_not_full _ b h, Function.update_eq_self] at e
  exact e

/-- An access of the main context keeps the invariant and the stream, and adds no work. -/
theorem mainStep_inv (t : Target) (k : Config) (hi : k.inv) :
    (mainStep t k).inv ∧ (mainStep t k).stream = k.stream ∧ (mainStep t k).work ≤ k.work := by
  obtain ⟨s, pc, todo⟩ := k
  obtain ⟨hw, hpc⟩ := hi
  have hw2 := hw
  obtain ⟨hh, ht⟩ := hw2
  cases pc with
  | idle =>
    cases todo with
    | nil => exact ⟨⟨hw, trivial⟩, rfl, le_refl _⟩
    | cons c rest =>
      refine ⟨⟨hw, ?_⟩, ?_, ?_⟩
      · exact next_index _
      · simp [mainStep, Config.stream, pending]
      · simp only [mainStep, Config.work, pcRank, List.length_cons]; omega
  | test c i =>
    simp only [Config.inv] at hpc
    by_cases hf : i = s.tx_buffer.tail
    · have e : mainStep t ⟨s, WritePc.test c i, todo⟩ = ⟨s, WritePc.test c i, todo⟩ := by
        simp [mainStep, hf]
      rw [e]
      exact ⟨⟨hw, hpc⟩, rfl, le_refl _⟩
    · have e : mainStep t ⟨s, WritePc.test c i, todo⟩ = ⟨s, WritePc.store c i, todo⟩ := by
        simp [mainStep, hf]
      rw [e]
      refine ⟨⟨hw, hpc, hf⟩, rfl, ?_⟩
      simp only [Config.work, pcRank]; omega
  | store c i =>
    simp only [Config.inv] at hpc
    refine ⟨⟨hw, hpc.1, hpc.2, ?_⟩, ?_, ?_⟩
    · simp [mainStep]
    · simp only [mainStep, Config.stream, pending, queued_store_slot c _ hw]
    · simp only [mainStep, Config.work, pcRank, queued_store_slot c _ hw]; omega
  | publish c i =>
    simp only [Config.inv] at hpc
    obtain ⟨h1, h2, h3⟩ := hpc
    subst h1
    refine ⟨⟨⟨Nat.mod_lt _ (by norm_num), ht⟩, trivial⟩, ?_, ?_⟩
    · simp only [mainStep, Config.stream, pending, queued_publish _ hw h2, h3,
        List.append_assoc, List.append_nil]
    · simp only [mainStep, Config.work, pcRank, queued_publish _ hw h2, List.length_append,
        List.length_singleton]
      omega
  | enable =>
    refine ⟨⟨hw, trivial⟩, rfl, ?_⟩
    simp only [mainStep, Config.work, pcRank]; omega
  | enable_store v =>
    refine ⟨⟨hw, trivial⟩, rfl, ?_⟩
    simp only [mainStep, Config.work, pcRank]; omega

/-- An access of the main context reduces the work left, unless it waits: on the loop
test with the buffer full, or with nothing left to write. -/
theorem mainStep_progress (t : Target) (k : Config) (hi : k.inv) :
    (mainStep t k).work < k.work ∨
      (mainStep t k = k ∧ (k.work ≠ 0 → k.s.tx_buffer.head ≠ k.s.tx_buffer.tail)) := by
  obtain ⟨s, pc, todo⟩ := k
  obtain ⟨hw, hpc⟩ := hi
  have hw : s.tx_buffer.wf := hw
  have hh : s.tx_buffer.head < 16 := hw.1
  have ht : s.tx_buffer.tail < 16 := hw.2
  cases pc with
  | idle =>
    cases todo with
    | nil =>
      refine Or.inr ⟨rfl, fun h0 he => h0 ?_⟩
      simp [Config.work, pcRank, queued_empty _ he]
    | cons c rest =>
      left
      simp only [mainStep, Config.work, pcRank, List.length_cons]; omega
  | test c i =>
    simp only [Config.inv] at hpc
    by_cases hf : i = s.tx_buffer.tail
    · have e : mainStep t ⟨s, WritePc.test c i, todo⟩ = ⟨s, WritePc.test c i, todo⟩ := by
        simp [mainStep, hf]
      refine Or.inr ⟨e, fun _ => ?_⟩
      show s.tx_buffer.head ≠ s.tx_buffer.tail
      omega
    · have e : mainStep t ⟨s, WritePc.test c i, todo⟩ = ⟨s, WritePc.store c i, todo⟩ := by
        simp [mainStep, hf]
      left
      rw [e]
      simp only [Config.work, pcRank]; omega
  | store c i =>
    left
    simp only [mainStep, Config.work, pcRank, queued_store_slot c _ hw]; omega
  | publish c i =>
    simp only [Config.inv] at hpc
    obtain ⟨h1, h2, h3⟩ := hpc
    subst h1
    left
    simp only [mainStep, Config.work, pcRank, queued_publish _ hw h2, List.length_append,
      List.length_singleton]
    omega
  | enable =>
    left
    simp only [mainStep, Config.work, pcRank]; omega
  | enable_store v =>
    left
    simp only [mainStep, Config.work, pcRank]; omega

/-- A handler run keeps the invariant and the stream, adds no work, and reduces the work
left when the buffer holds a byte. -/
theorem handlerStep_inv (t : Target) (k : Config) (hi : k.inv) :
    (handlerStep t k).inv ∧ (handlerStep t k).stream = k.stream ∧
      (handlerStep t k).work ≤ k.work ∧
      (k.s.tx_buffer.head ≠ k.s.tx_buffer.tail → (handlerStep t k).work < k.work) := by
  obtain ⟨s, pc, todo⟩ := k
  obtain ⟨hw, hpc⟩ := hi
  have hw : s.tx_buffer.wf := hw
  have hh : s.tx_buffer.head < 16 := hw.1
  have ht : s.tx_buffer.tail < 16 := hw.2
  by_cases he : s.tx_buffer.head = s.tx_buffer.tail
  · have e : (HardwareSerial.ProcessTXInt t s).tx_buffer = s.tx_buffer := by
      simp [HardwareSerial.ProcessTXInt, he]
    have e2 : (HardwareSerial.ProcessTXInt t s).UCA0TXBUF = s.UCA0TXBUF := by
      simp [HardwareSerial.ProcessTXInt, he]
    refine ⟨?_, ?_, ?_, fun h => absurd he h⟩
    · simp only [handlerStep, Config.inv, e]
      exact ⟨hw, hpc⟩
    · simp only [handlerStep, Config.stream, e, e2]
    · simp only [handlerStep, Config.work, e]
      exact le_refl _
  · have e : (HardwareSerial.ProcessTXInt t s).tx_buffer =
        { s.tx_buffer with tail := (s.tx_buffer.tail + 1) % 16 } := by
      simp [HardwareSerial.ProcessTXInt, he, next_index]
    have e2 : (HardwareSerial.ProcessTXInt t s).UCA0TXBUF =
        s.UCA0TXBUF ++ [s.tx_buffer.buffer s.tx_buffer.tail] := by
      simp [HardwareSerial.ProcessTXInt, he]
    have hq := queued_pop _ hw he
    have hlt : (handlerStep t ⟨s, pc, todo⟩).work < (Config.mk s pc todo).work := by
      simp only [handlerStep, Config.work, e]
      rw [hq, List.length_cons]
      exact Nat.add_lt_add_left (Nat.lt_succ_self _) _
    refine ⟨?_, ?_, le_of_lt hlt, fun _ => hlt⟩
    · simp only [handlerStep, Config.inv, e]
      refine ⟨⟨hh, Nat.mod_lt _ (by norm_num)⟩, ?_⟩
      cases pc with
      | idle => trivial
      | test c i => exact hpc
      | store c i =>
        simp only [Config.inv] at hpc
        refine ⟨hpc.1, ?_⟩
        have := hpc.2
        omega
      | publish c i =>
        simp only [Config.inv] at hpc
        refine ⟨hpc.1, ?_, hpc.2.2⟩
        have := hpc.2.1
        omega
      | enable => trivial
      | enable_store v => trivial
    · simp only [handlerStep, Config.stream, e, e2]
      rw [hq]
      simp [List.append_assoc]

/-- The invariant holds at the start. -/
theorem start_inv (bytes : List uchar) : (Config.start bytes).inv :=
  ⟨ring_buffer_init_wf, trivial⟩

/-- At the start the stream is the list of bytes to write. -/
theorem start_stream (bytes : List uchar) : (Config.start bytes).stream = bytes := by
  simp [Config.start, Config.stream, pending, State.init,
    show ring_buffer.init.queued = [] from queued_empty _ rfl]

/-- The work at the start. -/
theorem start_work (bytes : List uchar) : (Config.start bytes).work = 7 * bytes.length := by
  simp [Config.start, Config.work, pcRank, State.init,
    show ring_buffer.init.queued = [] from queued_empty _ rfl]

/-- Every schedule keeps the invariant and the stream, and adds no work. -/
theorem preemptRun_inv (t : Target) (sched : List Actor) : ∀ k : Config, k.inv →
    (preemptRun t sched k).inv ∧ (preemptRun t sched k).stream = k.stream ∧
      (preemptRun t sched k).work ≤ k.work := by
  induction sched with
  | nil => intro k hi; exact ⟨hi, rfl, le_refl _⟩
  | cons a rest ih =>
    intro k hi
    cases a with
    | main =>
      obtain ⟨h1, h2, h3⟩ := mainStep_inv t k hi
      obtain ⟨i1, i2, i3⟩ := ih _ h1
      exact ⟨i1, i2.trans h2, le_trans i3 h3⟩
    | handler =>
      obtain ⟨h1, h2, h3, _⟩ := handlerStep_inv t k hi
      obtain ⟨i1, i2, i3⟩ := ih _ h1
      exact ⟨i1, i2.trans h2, le_trans i3 h3⟩

/-- Running one schedule after another. -/
theorem preemptRun_append (t : Target) (a b : List Actor) : ∀ k : Config,
    preemptRun t (a ++ b) k = preemptRun t b (preemptRun t a k) := by
  induction a with
  | nil => intro k; rfl
  | cons x a ih => intro k; simp [preemptRun, ih]

/-- One main-context access followed by one handler run reduces the work left. -/
theorem round_work (t : Target) (k : Config) (hi : k.inv) (h0 : k.work ≠ 0) :
    (handlerStep t (mainStep t k)).work < k.work := by
  obtain ⟨h1, _, h3⟩ := mainStep_inv t k hi
  obtain ⟨_, _, g3, g4⟩ := handlerStep_inv t _ h1
  rcases mainStep_progress t k hi with hlt | ⟨he, hne⟩
  · exact lt_of_le_of_lt g3 hlt
  · rw [he] at g4 ⊢
    exact g4 (hne h0)

/-- Alternating for as many rounds as work is left finishes the work. -/
theorem roundRobin_work (t : Target) (n : Nat) : ∀ k : Config, k.inv → k.work ≤ n →
    (preemptRun t (roundRobin n) k).work = 0 := by
  induction n with
  | zero => intro k _ h; exact Nat.le_zero.mp h
  | succ n ih =>
    intro k hi h
    obtain ⟨h1, _, h3⟩ := mainStep_inv t k hi
    obtain ⟨g1, _, g3, _⟩ := handlerStep_inv t _ h1
    apply ih _ g1
    by_cases h0 : k.work = 0
    · have : (handlerStep t (mainStep t k)).work ≤ k.work := le_trans g3 h3
      show (handlerStep t (mainStep t k)).work ≤ n
      omega
    · have := round_work t k hi h0
      show (handlerStep t (mainStep t k)).work ≤ n
      omega

/-- With no work left the main context is done and the buffer is empty. -/
theorem work_zero (k : Config) (hi : k.inv) (h : k.work = 0) :
    k.pc = WritePc.idle ∧ k.todo = [] ∧ k.s.tx_buffer.head = k.s.tx_buffer.tail := by
  obtain ⟨s, pc, todo⟩ := k
  simp only [Config.work] at h
  have hq : s.tx_buffer.queued.length = 0 := by omega
  have hr : pcRank pc = 0 := by omega
  have ht : todo.length = 0 := by omega
  refine ⟨?_, List.length_eq_zero.mp ht,
    head_eq_tail_of_queued_nil _ hi.1 (List.length_eq_zero.mp hq)⟩
  cases pc <;> simp [pcRank] at hr ⊢

/-- With the main context done and the buffer empty, the stream is the bytes sent. -/
theorem done_stream (k : Config) (hp : k.pc = WritePc.idle) (ht : k.todo = [])
    (he : k.s.tx_buffer.head = k.s.tx_buffer.tail) : k.stream = k.s.UCA0TXBUF := by
  simp [Config.stream, hp, ht, pending, queued_empty _ he]

/-- Left alone, the six accesses of the main context do what `write` does in one go. -/
theorem mainSteps_eq_write (t : Target) (c : uchar) (rest : List uchar) (s : State)
    (hf : (s.tx_buffer.head + 1) % 16 ≠ s.tx_buffer.tail) :
    HardwareSerial.write t c s =
      some (1, (preemptRun t [Actor.main, Actor.main, Actor.main, Actor.main, Actor.main,
        Actor.main] { s := s, pc := WritePc.idle, todo := c :: rest }).s) := by
  rw [write_not_full t c s hf, store_char_not_full c _ hf]
  simp [preemptRun, preemptStep, mainStep, next_index, hf]

/-! ## The claims -/

/-- C1. From a buffer that is empty at any index `k < 16`, pushing `N ≤ 15` bytes with
`store_char` and then calling `read()` `N` times: every push is accepted, the reads
return exactly the pushed bytes in order as unsigned values, and the buffer ends
empty (`head = tail`). -/
theorem C1_fifo_order (k : Nat) (hk : k < 16) (bytes : List uchar) (hN : bytes.length ≤ 15)
    (s : State) (hh : s.rx_buffer.head = k) (ht : s.rx_buffer.tail = k) :
    (rxRun (bytes.map RxOp.push ++ List.replicate bytes.length RxOp.pop) s).1 =
        List.replicate bytes.length (RxEvent.pushed true) ++
          bytes.map (fun c => RxEvent.popped (Int.ofNat c.val)) ∧
      (rxRun (bytes.map RxOp.push ++ List.replicate bytes.length RxOp.pop) s).2.rx_buffer.head =
        (rxRun (bytes.map RxOp.push ++ List.replicate bytes.length RxOp.pop)
          s).2.rx_buffer.tail := by
  have hw : s.rx_buffer.wf := ⟨by omega, by omega⟩
  have hq : s.rx_buffer.queued = [] := queued_empty _ (by omega)
  obtain ⟨a1, a2, a3⟩ := rxRun_sim (bytes.map RxOp.push) s hw
  rw [hq, fifoRun_pushes bytes [] (by simpa using hN)] at a1 a2
  obtain ⟨b1, b2, b3⟩ := rxRun_sim (List.replicate bytes.length RxOp.pop) _ a3
  simp only [List.nil_append] at a2
  rw [a2, fifoRun_pops] at b1 b2
  rw [rxRun_append]
  exact ⟨by rw [a1, b1], head_eq_tail_of_queued_nil _ b3 b2⟩

/-- C1 at `k = 14` with the bytes 200, 0, 255: the indices wrap past 15. -/
theorem C1_fifo_order_witness :
    (14 < 16 ∧ ([200, 0, 255] : List uchar).length ≤ 15 ∧
      (rx_at 14).rx_buffer.head = 14 ∧ (rx_at 14).rx_buffer.tail = 14) ∧
    (rxRun [RxOp.push 200, RxOp.push 0, RxOp.push 255, RxOp.pop, RxOp.pop, RxOp.pop]
        (rx_at 14)).1 =
      [RxEvent.pushed true, RxEvent.pushed true, RxEvent.pushed true,
        RxEvent.popped 200, RxEvent.popped 0, RxEvent.popped 255] ∧
    (rxRun [RxOp.push 200, RxOp.push 0, RxOp.push 255, RxOp.pop, RxOp.pop, RxOp.pop]
        (rx_at 14)).2.rx_buffer.head =
      (rxRun [RxOp.push 200, RxOp.push 0, RxOp.push 255, RxOp.pop, RxOp.pop, RxOp.pop]
        (rx_at 14)).2.rx_buffer.tail :=
  ⟨⟨by decide, by decide, rfl, rfl⟩,
    C1_fifo_order 14 (by decide) [200, 0, 255] (by decide) (rx_at 14) rfl rfl⟩

/-- C2. For every interleaving of `store_char` and `read()` calls from the initial
state, the receive buffer behaves as the bounded FIFO queue of capacity 15: each
call shows what the queue shows, the slots from `tail` up to `head` are the queue's
content, a push is accepted exactly when fewer than 15 bytes are queued, and the
accepted bytes are the bytes returned by the successful reads followed by the
bytes still queued. -/
theorem C2_refines_bounded_fifo (ops : List RxOp) :
    (rxRun ops State.init).1 = (fifoRun ops []).1 ∧
      (rxRun ops State.init).2.rx_buffer.queued = (fifoRun ops []).2 ∧
      (∀ c : uchar, (rxStep (rxRun ops State.init).2 (RxOp.push c)).1 =
        RxEvent.pushed (decide ((rxRun ops State.init).2.rx_buffer.queued.length < 15))) ∧
      (acceptedBytes ops (rxRun ops State.init).1).map (fun c => Int.ofNat c.val) =
        returnedValues (rxRun ops State.init).1 ++
          (rxRun ops State.init).2.rx_buffer.queued.map (fun c => Int.ofNat c.val) := by
  obtain ⟨h1, h2, h3⟩ := rxRun_sim ops State.init ring_buffer_init_wf
  rw [show State.init.rx_buffer.queued = [] from queued_empty _ rfl] at h1 h2
  refine ⟨h1, h2, ?_, ?_⟩
  · intro c
    rw [(rxStep_sim _ h3 (RxOp.push c)).1]
    by_cases hl : (rxRun ops State.init).2.rx_buffer.queued.length < 15 <;> simp [fifoStep, hl]
  · have := fifoRun_bytes ops []
    rw [h1, h2]
    simpa using this

/-- C3. From an empty buffer, 15 `store_char` calls are all accepted and leave
`available()` at 15; a 16th call is rejected and `available()` stays 15.  On any
state with `(head + 1) mod 16 = tail`, `store_char` changes nothing; on any other
state with indices in range it stores the byte at the old `head` and advances
`head` by one modulo 16. -/
theorem C3_full_buffer_drop (s : State) (bytes : List uchar) (c : uchar)
    (hempty : s.rx_buffer.head = s.rx_buffer.tail) (hidx : s.rx_buffer.head < 16)
    (hlen : bytes.length = 15)
    (b1 : ring_buffer) (c1 : uchar) (hfull : (b1.head + 1) % 16 = b1.tail)
    (b2 : ring_buffer) (c2 : uchar) (_hh2 : b2.head < 16) (_ht2 : b2.tail < 16)
    (hfree : (b2.head + 1) % 16 ≠ b2.tail) :
    ((rxRun (bytes.map RxOp.push) s).1 = List.replicate 15 (RxEvent.pushed true) ∧
      (HardwareSerial.available (rxRun (bytes.map RxOp.push) s).2).1 = 15 ∧
      (rxStep (rxRun (bytes.map RxOp.push) s).2 (RxOp.push c)).1 = RxEvent.pushed false ∧
      (HardwareSerial.available
        (rxStep (rxRun (bytes.map RxOp.push) s).2 (RxOp.push c)).2).1 = 15) ∧
    store_char c1 b1 = b1 ∧
    store_char c2 b2 =
      { buffer := Function.update b2.buffer b2.head c2, head := (b2.head + 1) % 16,
        tail := b2.tail } := by
  refine ⟨?_, store_char_full c1 b1 hfull, store_char_not_full c2 b2 hfree⟩
  have hw : s.rx_buffer.wf := ⟨hidx, by omega⟩
  have hq : s.rx_buffer.queued = [] := queued_empty _ hempty
  obtain ⟨a1, a2, a3⟩ := rxRun_sim (bytes.map RxOp.push) s hw
  rw [hq, fifoRun_pushes bytes [] (by simp [hlen])] at a1 a2
  simp only [List.nil_append, hlen] at a1 a2
  obtain ⟨p1, p2, p3⟩ := rxStep_sim _ a3 (RxOp.push c)
  have hl : ¬ bytes.length < 15 := by omega
  rw [a2] at p1 p2
  simp only [fifoStep, hl, if_false] at p1 p2
  refine ⟨a1, ?_, p1, ?_⟩
  · rw [available_eq_length _ a3, a2, hlen]; rfl
  · rw [available_eq_length _ p3, p2, hlen]; rfl

/-- C3 from the buffer empty at index 5 with the bytes 1 to 15 and then 16, on the
full buffer `head = 3, tail = 4`, and on the buffer `head = 15, tail = 3`. -/
theorem C3_full_buffer_drop_witness :
    ((rx_at 5).rx_buffer.head = (rx_at 5).rx_buffer.tail ∧ (rx_at 5).rx_buffer.head < 16 ∧
      ([1, 2, 3, 4, 5, 6, 7, 8, 9, 10, 11, 12, 13, 14, 15] : List uchar).length = 15 ∧
      (full_sample.head + 1) % 16 = full_sample.tail ∧
      wrap_sample.head < 16 ∧ wrap_sample.tail < 16 ∧
      (wrap_sample.head + 1) % 16 ≠ wrap_sample.tail) ∧
    (((rxRun (([1, 2, 3, 4, 5, 6, 7, 8, 9, 10, 11, 12, 13, 14, 15] : List uchar).map RxOp.push)
          (rx_at 5)).1 = List.replicate 15 (RxEvent.pushed true) ∧
      (HardwareSerial.available
        (rxRun (([1, 2, 3, 4, 5, 6, 7, 8, 9, 10, 11, 12, 13, 14, 15] : List uchar).map RxOp.push)
          (rx_at 5)).2).1 = 15 ∧
      (rxStep
        (rxRun (([1, 2, 3, 4, 5, 6, 7, 8, 9, 10, 11, 12, 13, 14, 15] : List uchar).map RxOp.push)
          (rx_at 5)).2 (RxOp.push 16)).1 = RxEvent.pushed false ∧
      (HardwareSerial.available
        (rxStep
          (rxRun
            (([1, 2, 3, 4, 5, 6, 7, 8, 9, 10, 11, 12, 13, 14, 15] : List uchar).map RxOp.push)
            (rx_at 5)).2 (RxOp.push 16)).2).1 = 15) ∧
    store_char 9 full_sample = full_sample ∧
    store_char 9 wrap_sample =
      { buffer := Function.update wrap_sample.buffer wrap_sample.head 9,
        head := (wrap_sample.head + 1) % 16, tail := wrap_sample.tail }) :=
  ⟨⟨rfl, by decide, rfl, by decide, by decide, by decide, by decide⟩,
    C3_full_buffer_drop (rx_at 5) [1, 2, 3, 4, 5, 6, 7, 8, 9, 10, 11, 12, 13, 14, 15] 16
      rfl (by decide) rfl full_sample 9 (by decide) wrap_sample 9 (by decide) (by decide)
      (by decide)⟩

/-- C4. On every state, `read()` returns `-1` exactly when `head = tail`, and so does
`peek()`; a call that returns `-1` leaves the state unchanged; otherwise the result
is the byte stored at `tail` as a value between 0 and 255, so a stored `0xFF` reads
as 255.  On the initial state `available()` is 0 and `peek()` and `read()` return
`-1`. -/
theorem C4_empty_semantics (s : State) :
    ((HardwareSerial.read s).1 = -1 ↔ s.rx_buffer.head = s.rx_buffer.tail) ∧
    ((HardwareSerial.peek s).1 = -1 ↔ s.rx_buffer.head = s.rx_buffer.tail) ∧
    ((HardwareSerial.read s).1 = -1 → (HardwareSerial.read s).2 = s) ∧
    ((HardwareSerial.peek s).1 = -1 → (HardwareSerial.peek s).2 = s) ∧
    (s.rx_buffer.head ≠ s.rx_buffer.tail →
      (HardwareSerial.read s).1 = Int.ofNat (s.rx_buffer.buffer s.rx_buffer.tail).val ∧
      (HardwareSerial.peek s).1 = Int.ofNat (s.rx_buffer.buffer s.rx_buffer.tail).val ∧
      0 ≤ (HardwareSerial.read s).1 ∧ (HardwareSerial.read s).1 ≤ 255) ∧
    (s.rx_buffer.head ≠ s.rx_buffer.tail → s.rx_buffer.buffer s.rx_buffer.tail = 255 →
      (HardwareSerial.read s).1 = 255 ∧ (HardwareSerial.peek s).1 = 255) ∧
    (HardwareSerial.available State.init).1 = 0 ∧
    (HardwareSerial.peek State.init).1 = -1 ∧
    (HardwareSerial.read State.init).1 = -1 := by
  have hb : (s.rx_buffer.buffer s.rx_buffer.tail).val < 256 := (s.rx_buffer.buffer _).isLt
  by_cases he : s.rx_buffer.head = s.rx_buffer.tail
  · simp [HardwareSerial.read, HardwareSerial.peek, he]
    refine ⟨?_, rfl, rfl⟩
    decide
  · have hneg : Int.ofNat (s.rx_buffer.buffer s.rx_buffer.tail).val ≠ -1 := by
      intro h
      have h0 : (0 : Int) ≤ Int.ofNat (s.rx_buffer.buffer s.rx_buffer.tail).val :=
        Int.ofNat_nonneg _
      rw [h] at h0
      exact absurd h0 (by decide)
    have hr : (HardwareSerial.read s).1 =
        Int.ofNat (s.rx_buffer.buffer s.rx_buffer.tail).val := by
      simp [HardwareSerial.read, he]
    have hp : HardwareSerial.peek s =
        (Int.ofNat (s.rx_buffer.buffer s.rx_buffer.tail).val, s) := by
      simp [HardwareSerial.peek, he]
    rw [hr, hp]
    refine ⟨⟨fun h => absurd h hneg, fun h => absurd h he⟩,
      ⟨fun h => absurd h hneg, fun h => absurd h he⟩, fun h => absurd h hneg,
      fun h => absurd h hneg, fun _ => ⟨rfl, rfl, Int.ofNat_nonneg _, ?_⟩, ?_, ?_, rfl, rfl⟩
    · show ((s.rx_buffer.buffer s.rx_buffer.tail).val : Int) ≤ 255
      omega
    · intro _ h; rw [h]; exact ⟨rfl, rfl⟩
    · decide

/-- C5. After every sequence of `store_char` and `read()` calls from the initial state,
`available()` equals the number of accepted bytes minus the number of bytes
returned by `read()`, equals `(16 + head - tail) mod 16`, and lies between 0 and
15. -/
theorem C5_available_counts (ops : List RxOp) :
    (HardwareSerial.available (rxRun ops State.init).2).1 =
        ((acceptedBytes ops (rxRun ops State.init).1).length : Int) -
          ((returnedValues (rxRun ops State.init).1).length : Int) ∧
      (HardwareSerial.available (rxRun ops State.init).2).1 =
        (((16 + (rxRun ops State.init).2.rx_buffer.head -
          (rxRun ops State.init).2.rx_buffer.tail) % 16 : Nat) : Int) ∧
      0 ≤ (HardwareSerial.available (rxRun ops State.init).2).1 ∧
      (HardwareSerial.available (rxRun ops State.init).2).1 ≤ 15 := by
  obtain ⟨h1, h2, h3⟩ := rxRun_sim ops State.init ring_buffer_init_wf
  rw [show State.init.rx_buffer.queued = [] from queued_empty _ rfl] at h1 h2
  have hb := congrArg List.length (fifoRun_bytes ops [])
  rw [← h1, ← h2] at hb
  simp only [List.nil_append, List.length_map, List.length_append] at hb
  have ha := available_eq_length _ h3
  have hl := queued_length (rxRun ops State.init).2.rx_buffer
  rw [ha]
  exact ⟨by omega, by rw [hl], by omega, by omega⟩

/-- C6. On every non-empty receive buffer with indices in range, `peek()` returns what
the `read()` right after it returns, `peek()` leaves the whole state unchanged (so
`available()` is unchanged and a second `peek()` agrees), and `available()` after
the `read()` is one less than before. -/
theorem C6_peek_non_destructive (s : State) (hne : s.rx_buffer.head ≠ s.rx_buffer.tail)
    (hh : s.rx_buffer.head < 16) (ht : s.rx_buffer.tail < 16) :
    (HardwareSerial.peek s).1 = (HardwareSerial.read (HardwareSerial.peek s).2).1 ∧
    (HardwareSerial.peek s).2 = s ∧
    (HardwareSerial.available (HardwareSerial.peek s).2).1 = (HardwareSerial.available s).1 ∧
    HardwareSerial.peek (HardwareSerial.peek s).2 = HardwareSerial.peek s ∧
    (HardwareSerial.available (HardwareSerial.read (HardwareSerial.peek s).2).2).1 =
      (HardwareSerial.available s).1 - 1 := by
  have hp : (HardwareSerial.peek s).2 = s := by simp [HardwareSerial.peek, hne]
  rw [hp]
  refine ⟨by simp [HardwareSerial.peek, HardwareSerial.read, hne], rfl, rfl, rfl, ?_⟩
  simp only [HardwareSerial.available, HardwareSerial.read, hne, if_false, usub, uadd,
    UINT_RANGE, SERIAL_BUFFER_SIZE]
  show ((_ : Nat) : Int) = ((_ : Nat) : Int) - 1
  omega

/-- C6 on the buffer holding 200 and 255 with `tail = 15`, `head = 1`. -/
theorem C6_peek_non_destructive_witness :
    (rx_sample.rx_buffer.head ≠ rx_sample.rx_buffer.tail ∧ rx_sample.rx_buffer.head < 16 ∧
      rx_sample.rx_buffer.tail < 16) ∧
    ((HardwareSerial.peek rx_sample).1 =
        (HardwareSerial.read (HardwareSerial.peek rx_sample).2).1 ∧
      (HardwareSerial.peek rx_sample).2 = rx_sample ∧
      (HardwareSerial.available (HardwareSerial.peek rx_sample).2).1 =
        (HardwareSerial.available rx_sample).1 ∧
      HardwareSerial.peek (HardwareSerial.peek rx_sample).2 = HardwareSerial.peek rx_sample ∧
      (HardwareSerial.available (HardwareSerial.read (HardwareSerial.peek rx_sample).2).2).1 =
        (HardwareSerial.available rx_sample).1 - 1) :=
  ⟨⟨by decide, by decide, by decide⟩,
    C6_peek_non_destructive rx_sample (by decide) (by decide) (by decide)⟩

/-- C7. For every byte `c` and every state whose transmit buffer has room, `write(c)`
returns 1, stores `c` in the slot at the old `tx.head` (no other slot changes),
advances `tx.head` by one modulo 16 with `tx.tail` unchanged, so the transmit count
grows by one, and leaves the transmit-empty interrupt enabled whatever it was
before.  `UCA0TXIE` is taken to be a non-zero mask inside the 8-bit `IE2`. -/
theorem C7_write_accepts (t : Target) (c : uchar) (s : State)
    (hm0 : 0 < t.UCA0TXIE) (hm : t.UCA0TXIE < 256)
    (hh : s.tx_buffer.head < 16) (ht : s.tx_buffer.tail < 16)
    (hfree : (s.tx_buffer.head + 1) % 16 ≠ s.tx_buffer.tail) :
    ∃ s1 : State, HardwareSerial.write t c s = some (1, s1) ∧
      s1.tx_buffer.buffer = Function.update s.tx_buffer.buffer s.tx_buffer.head c ∧
      s1.tx_buffer.head = (s.tx_buffer.head + 1) % 16 ∧
      s1.tx_buffer.tail = s.tx_buffer.tail ∧
      (16 + s1.tx_buffer.head - s1.tx_buffer.tail) % 16 =
        (16 + s.tx_buffer.head - s.tx_buffer.tail) % 16 + 1 ∧
      txie_enabled t s1 = true := by
  refine ⟨_, write_not_full t c s hfree, ?_⟩
  rw [store_char_not_full c _ hfree]
  refine ⟨rfl, rfl, rfl, ?_, ?_⟩
  · show (16 + (s.tx_buffer.head + 1) % 16 - s.tx_buffer.tail) % 16 = _
    omega
  · show ((s.IE2 ||| t.UCA0TXIE) % 256 &&& t.UCA0TXIE != 0) = true
    rw [or_mask_and _ _ hm]
    simp; omega

/-- C7 for `write(65)` on the MSP430G2553 after one write and two handler runs, where
the interrupt was disabled before the call. -/
theorem C7_write_accepts_witness :
    (0 < msp430g2553.UCA0TXIE ∧ msp430g2553.UCA0TXIE < 256 ∧
      tx_idle_sample.tx_buffer.head < 16 ∧ tx_idle_sample.tx_buffer.tail < 16 ∧
      (tx_idle_sample.tx_buffer.head + 1) % 16 ≠ tx_idle_sample.tx_buffer.tail ∧
      txie_enabled msp430g2553 tx_idle_sample = false) ∧
    ∃ s1 : State, HardwareSerial.write msp430g2553 65 tx_idle_sample = some (1, s1) ∧
      s1.tx_buffer.buffer =
        Function.update tx_idle_sample.tx_buffer.buffer tx_idle_sample.tx_buffer.head 65 ∧
      s1.tx_buffer.head = (tx_idle_sample.tx_buffer.head + 1) % 16 ∧
      s1.tx_buffer.tail = tx_idle_sample.tx_buffer.tail ∧
      (16 + s1.tx_buffer.head - s1.tx_buffer.tail) % 16 =
        (16 + tx_idle_sample.tx_buffer.head - tx_idle_sample.tx_buffer.tail) % 16 + 1 ∧
      txie_enabled msp430g2553 s1 = true :=
  ⟨⟨by decide, by decide, by decide, by decide, by decide, by decide⟩,
    C7_write_accepts msp430g2553 65 tx_idle_sample (by decide) (by decide) (by decide)
      (by decide) (by decide)⟩

/-- C8. In every state reached from startup by completed `write()` calls and runs of
`ProcessTXInt`, the bytes written to the transmit register followed by the bytes
queued in `tx` from `tail` to `head` are the bytes passed to `write()`, in order.
Hence when `tx.head = tx.tail`, which is when `flush()` returns, the transmit
register has received every written byte once and in order. -/
theorem C8_tx_stream (t : Target) (ops : List TxOp) (s : State)
    (hrun : txRun t ops State.init = some s) :
    s.UCA0TXBUF ++ s.tx_buffer.queued = writtenBytes ops ∧
      (s.tx_buffer.head = s.tx_buffer.tail → s.UCA0TXBUF = writtenBytes ops) ∧
      (∀ s1 : State, HardwareSerial.flush s = some s1 → s1.UCA0TXBUF = writtenBytes ops) := by
  obtain ⟨_, e⟩ := txRun_stream t ops State.init s ring_buffer_init_wf hrun
  have e0 : State.init.UCA0TXBUF ++ State.init.tx_buffer.queued = [] := by
    rw [show State.init.tx_buffer.queued = [] from queued_empty _ rfl]; rfl
  rw [e0, List.nil_append] at e
  have hd : s.tx_buffer.head = s.tx_buffer.tail → s.UCA0TXBUF = writtenBytes ops := by
    intro hd
    rw [queued_empty _ hd, List.append_nil] at e
    exact e
  refine ⟨e, hd, ?_⟩
  intro s1 hf
  by_cases he : s.tx_buffer.head = s.tx_buffer.tail
  · simp only [HardwareSerial.flush, he, ne_eq, not_true_eq_false, if_false,
      Option.some.injEq] at hf
    rw [← hf]
    exact hd he
  · simp [HardwareSerial.flush, he] at hf

/-- C8 on the MSP430G2553 for `write(1)`, `write(2)` and one handler run. -/
theorem C8_tx_stream_witness :
    txRun msp430g2553 [TxOp.write 1, TxOp.write 2, TxOp.txint] State.init = some tx_sample ∧
    (tx_sample.UCA0TXBUF ++ tx_sample.tx_buffer.queued =
        writtenBytes [TxOp.write 1, TxOp.write 2, TxOp.txint] ∧
      (tx_sample.tx_buffer.head = tx_sample.tx_buffer.tail →
        tx_sample.UCA0TXBUF = writtenBytes [TxOp.write 1, TxOp.write 2, TxOp.txint]) ∧
      (∀ s1 : State, HardwareSerial.flush tx_sample = some s1 →
        s1.UCA0TXBUF = writtenBytes [TxOp.write 1, TxOp.write 2, TxOp.txint])) :=
  ⟨rfl, C8_tx_stream msp430g2553 [TxOp.write 1, TxOp.write 2, TxOp.txint] tx_sample rfl⟩

/-- C9, as stated, fails: on the MSP430G2553, after `begin(9600)` (transmit buffer
empty, interrupt disabled), `write(65)` and one run of `ProcessTXInt`, the transmit
buffer is empty (`head = tail = 1`) and the interrupt is still enabled, so neither
alternative holds. -/
theorem C9_counterexample :
    (HardwareSerial.begin msp430g2553 9600 State.init).tx_buffer.head =
        (HardwareSerial.begin msp430g2553 9600 State.init).tx_buffer.tail ∧
      txie_enabled msp430g2553 (HardwareSerial.begin msp430g2553 9600 State.init) = false ∧
      (txRun msp430g2553 [TxOp.write 65, TxOp.txint]
          (HardwareSerial.begin msp430g2553 9600 State.init)).map
        (fun s => (s.tx_buffer.head, s.tx_buffer.tail, txie_enabled msp430g2553 s)) =
        some (1, 1, true) := by
  exact ⟨rfl, by decide, by decide⟩

/-- C9, amended. In every state reached from a state with the transmit buffer empty
and the interrupt disabled by completed `write()` calls and runs of `ProcessTXInt`,
the two alternatives never hold together: queued data and a disabled interrupt
exclude each other. -/
theorem C9_queued_implies_enabled (t : Target) (hm0 : 0 < t.UCA0TXIE)
    (hm : t.UCA0TXIE < 256) (s0 : State) (hempty : s0.tx_buffer.head = s0.tx_buffer.tail)
    (_hoff : txie_enabled t s0 = false) (ops : List TxOp) (s : State)
    (hrun : txRun t ops s0 = some s) :
    ¬ (s.tx_buffer.head ≠ s.tx_buffer.tail ∧ txie_enabled t s = false) := by
  rintro ⟨hq, hd⟩
  have := txRun_enabled t hm0 hm ops s0 s (fun h => absurd hempty h) hrun hq
  rw [this] at hd
  exact absurd hd (by decide)

/-- C9, amended, on the MSP430G2553 from startup for `write(1)`, `write(2)` and one
handler run. -/
theorem C9_queued_implies_enabled_witness :
    (0 < msp430g2553.UCA0TXIE ∧ msp430g2553.UCA0TXIE < 256 ∧
      State.init.tx_buffer.head = State.init.tx_buffer.tail ∧
      txie_enabled msp430g2553 State.init = false ∧
      txRun msp430g2553 [TxOp.write 1, TxOp.write 2, TxOp.txint] State.init =
        some tx_sample) ∧
    ¬ (tx_sample.tx_buffer.head ≠ tx_sample.tx_buffer.tail ∧
      txie_enabled msp430g2553 tx_sample = false) :=
  ⟨⟨by decide, by decide, rfl, by decide, rfl⟩,
    C9_queued_implies_enabled msp430g2553 (by decide) (by decide) State.init rfl (by decide)
      [TxOp.write 1, TxOp.write 2, TxOp.txint] tx_sample rfl⟩

/-- C10, as stated, fails: with two bytes received (`rx.head = 2`, `rx.tail = 0`) and
the transmit buffer drained, `end()` leaves `rx.head = 0` and `rx.tail = 0`; the
claim has `rx.head` stay 2 and `rx.tail` become 2. -/
theorem C10_counterexample :
    (rxRun [RxOp.push 1, RxOp.push 2] State.init).2.rx_buffer.head = 2 ∧
      (rxRun [RxOp.push 1, RxOp.push 2] State.init).2.rx_buffer.tail = 0 ∧
      (HardwareSerial.end_ (rxRun [RxOp.push 1, RxOp.push 2] State.init).2).map
        (fun s => (s.rx_buffer.head, s.rx_buffer.tail)) = some (0, 0) := by
  exact ⟨by decide, by decide, by decide⟩

/-- C10, amended. On every state whose transmit buffer is drained, `end()` returns and
empties the receive buffer by setting `rx.head` to the current `rx.tail`: `rx.tail`
has the same value after `end()` as before it, and `rx.head` afterwards equals
that value. -/
theorem C10_end_resets_head (s : State) (hdrained : s.tx_buffer.head = s.tx_buffer.tail) :
    ∃ s1 : State, HardwareSerial.end_ s = some s1 ∧
      s1.rx_buffer.tail = s.rx_buffer.tail ∧
      s1.rx_buffer.head = s.rx_buffer.tail ∧
      s1.rx_buffer.head = s1.rx_buffer.tail := by
  refine ⟨{ s with rx_buffer := { s.rx_buffer with head := s.rx_buffer.tail } }, ?_,
    rfl, rfl, rfl⟩
  simp [HardwareSerial.end_, hdrained]

/-- C10, amended, on the state with two bytes received and nothing to transmit. -/
theorem C10_end_resets_head_witness :
    (rxRun [RxOp.push 1, RxOp.push 2] State.init).2.tx_buffer.head =
        (rxRun [RxOp.push 1, RxOp.push 2] State.init).2.tx_buffer.tail ∧
    ∃ s1 : State,
      HardwareSerial.end_ (rxRun [RxOp.push 1, RxOp.push 2] State.init).2 = some s1 ∧
      s1.rx_buffer.tail = (rxRun [RxOp.push 1, RxOp.push 2] State.init).2.rx_buffer.tail ∧
      s1.rx_buffer.head = (rxRun [RxOp.push 1, RxOp.push 2] State.init).2.rx_buffer.tail ∧
      s1.rx_buffer.head = s1.rx_buffer.tail :=
  ⟨rfl, C10_end_resets_head (rxRun [RxOp.push 1, RxOp.push 2] State.init).2 rfl⟩

/-- C11. On every state whose transmit buffer is drained, whatever the receive buffer
holds, `end()` returns and leaves the receive buffer empty: `available()` is 0 and
`peek()` and `read()` return `-1`; the transmit buffer (head, tail and bytes) is
unchanged. -/
theorem C11_end_empties_rx (s : State) (hdrained : s.tx_buffer.head = s.tx_buffer.tail) :
    ∃ s1 : State, HardwareSerial.end_ s = some s1 ∧
      (HardwareSerial.available s1).1 = 0 ∧
      (HardwareSerial.peek s1).1 = -1 ∧
      (HardwareSerial.read s1).1 = -1 ∧
      s1.tx_buffer = s.tx_buffer := by
  refine ⟨{ s with rx_buffer := { s.rx_buffer with head := s.rx_buffer.tail } }, ?_, ?_,
    ?_, ?_, rfl⟩
  · simp [HardwareSerial.end_, hdrained]
  · simp only [HardwareSerial.available, usub, uadd, UINT_RANGE, SERIAL_BUFFER_SIZE]
    show ((_ : Nat) : Int) = 0
    have : (((16 + s.rx_buffer.tail) % 65536 % 65536 + (65536 - s.rx_buffer.tail % 65536))
        % 65536 % 16) = 0 := by omega
    rw [this]; rfl
  · simp [HardwareSerial.peek]
  · simp [HardwareSerial.read]

/-- C11 on the state with the bytes 200 and 255 unread and nothing to transmit. -/
theorem C11_end_empties_rx_witness :
    rx_sample.tx_buffer.head = rx_sample.tx_buffer.tail ∧
    ∃ s1 : State, HardwareSerial.end_ rx_sample = some s1 ∧
      (HardwareSerial.available s1).1 = 0 ∧
      (HardwareSerial.peek s1).1 = -1 ∧
      (HardwareSerial.read s1).1 = -1 ∧
      s1.tx_buffer = rx_sample.tx_buffer :=
  ⟨rfl, C11_end_empties_rx rx_sample rfl⟩

/-- C12. For every source clock and every baud rate above 0 (both within 32 bits), the
value `begin` writes to `UCA0MCTL` has the bit `UCOS16` set exactly when
`F_CPU / baud` is at least 48, and clear exactly when it is below 48: the modulation
bits OR-ed in leave that bit as the mode selected it.  `UCOS16` is bit 0, its value
in the device headers. -/
theorem C12_oversampling_flag (t : Target) (baud : Nat) (s : State)
    (_hbaud : 0 < baud) (hbaud32 : baud < ULONG_RANGE) (hclk : t.F_CPU < ULONG_RANGE)
    (hflag : t.UCOS16 = 1) :
    ((HardwareSerial.begin t baud s).UCA0MCTL &&& t.UCOS16 = t.UCOS16 ↔ 48 ≤ t.F_CPU / baud) ∧
    ((HardwareSerial.begin t baud s).UCA0MCTL &&& t.UCOS16 = 0 ↔ t.F_CPU / baud < 48) ∧
    (HardwareSerial.begin t baud s).UCA0MCTL &&& t.UCOS16 =
      (if 48 ≤ t.F_CPU / baud then t.UCOS16 else 0) &&& t.UCOS16 := by
  rw [begin_UCA0MCTL, hflag]
  have e1 : t.F_CPU % ULONG_RANGE = t.F_CPU := Nat.mod_eq_of_lt hclk
  have e2 : baud % ULONG_RANGE = baud := Nat.mod_eq_of_lt hbaud32
  by_cases h : 48 ≤ t.F_CPU / baud
  · have ho : begin_oversampling t baud = 1 := by simp [begin_oversampling, e1, e2, h]
    simp only [ho, h, if_true, one_ne_zero, if_false, ne_eq, not_false_eq_true]
    rw [Nat.lor_comm, or_mask_and _ 1 (by norm_num)]
    simp
    omega
  · have ho : begin_oversampling t baud = 0 := by simp [begin_oversampling, e1, e2, h]
    simp only [ho, h, if_true, if_false, ne_eq, not_true_eq_false, Nat.zero_or]
    rw [mod_even_and_one]
    simp
    omega

/-- C12 on the MSP430G2553 at 16 MHz for `begin(9600)`. -/
theorem C12_oversampling_flag_witness :
    (0 < 9600 ∧ 9600 < ULONG_RANGE ∧ msp430g2553.F_CPU < ULONG_RANGE ∧
      msp430g2553.UCOS16 = 1) ∧
    (((HardwareSerial.begin msp430g2553 9600 State.init).UCA0MCTL &&& msp430g2553.UCOS16 =
        msp430g2553.UCOS16 ↔ 48 ≤ msp430g2553.F_CPU / 9600) ∧
    ((HardwareSerial.begin msp430g2553 9600 State.init).UCA0MCTL &&& msp430g2553.UCOS16 = 0 ↔
        msp430g2553.F_CPU / 9600 < 48) ∧
    (HardwareSerial.begin msp430g2553 9600 State.init).UCA0MCTL &&& msp430g2553.UCOS16 =
      (if 48 ≤ msp430g2553.F_CPU / 9600 then msp430g2553.UCOS16 else 0) &&&
        msp430g2553.UCOS16) :=
  ⟨⟨by decide, by decide, by decide, rfl⟩,
    C12_oversampling_flag msp430g2553 9600 State.init (by decide) (by decide) (by decide) rfl⟩

/-- C13. The code misses the claim: at 16 MHz `begin(1200)` is in oversampling mode with
`D = (F_CPU << 4) / 1200 = 213333`; the divisor `D >> 8 = 833` fits the 16-bit
register pair, but the 16-bit local `divider` holds only `D mod 65536 = 16725`, and
what is written to `UCA0BR1:UCA0BR0` is `16725 >> 8 = 65`. -/
theorem C13_divider_truncated :
    48 ≤ msp430g2553.F_CPU / 1200 ∧
    (msp430g2553.F_CPU <<< 4) / 1200 = 213333 ∧
    ((msp430g2553.F_CPU <<< 4) / 1200) >>> 8 = 833 ∧
    ((msp430g2553.F_CPU <<< 4) / 1200) >>> 8 < 65536 ∧
    begin_divider msp430g2553 1200 = 16725 ∧
    (HardwareSerial.begin msp430g2553 1200 State.init).UCA0BR1 * 256 +
      (HardwareSerial.begin msp430g2553 1200 State.init).UCA0BR0 = 65 := by
  decide

/-- C14, as stated, fails: with a source clock of 1,000,000 Hz, `begin(9600)` takes the
oversampling path (1000000 / 9600 = 104 is at least 48): the flag is set and the
divisor is `D >> 8 = 6`, not `D >> 4 = 104`. -/
theorem C14_counterexample :
    (g2553_at 1000000).F_CPU = 1000000 ∧
    begin_oversampling (g2553_at 1000000) 9600 = 1 ∧
    (HardwareSerial.begin (g2553_at 1000000) 9600 State.init).UCA0MCTL &&&
      (g2553_at 1000000).UCOS16 = (g2553_at 1000000).UCOS16 ∧
    (HardwareSerial.begin (g2553_at 1000000) 9600 State.init).UCA0BR1 * 256 +
      (HardwareSerial.begin (g2553_at 1000000) 9600 State.init).UCA0BR0 = 6 ∧
    (((g2553_at 1000000).F_CPU <<< 4) / 9600) >>> 4 = 104 := by
  decide

/-- C14, amended. With a source clock of 1,000,000 Hz and with one of 8,000,000 Hz,
`begin(9600)` takes the oversampling path: the flag is set and the divisor is
`D >> 8`. -/
theorem C14_both_oversampling (t1 t8 : Target) (s : State)
    (h1 : t1.F_CPU = 1000000) (hf1 : t1.UCOS16 = 1)
    (h8 : t8.F_CPU = 8000000) (hf8 : t8.UCOS16 = 1) :
    (begin_oversampling t1 9600 = 1 ∧
      (HardwareSerial.begin t1 9600 s).UCA0MCTL &&& t1.UCOS16 = t1.UCOS16 ∧
      (HardwareSerial.begin t1 9600 s).UCA0BR1 * 256 + (HardwareSerial.begin t1 9600 s).UCA0BR0 =
        ((t1.F_CPU <<< 4) / 9600) >>> 8) ∧
    (begin_oversampling t8 9600 = 1 ∧
      (HardwareSerial.begin t8 9600 s).UCA0MCTL &&& t8.UCOS16 = t8.UCOS16 ∧
      (HardwareSerial.begin t8 9600 s).UCA0BR1 * 256 + (HardwareSerial.begin t8 9600 s).UCA0BR0 =
        ((t8.F_CPU <<< 4) / 9600) >>> 8) := by
  rw [begin_UCA0MCTL, begin_UCA0BR0, begin_UCA0BR1, begin_UCA0MCTL, begin_UCA0BR0,
    begin_UCA0BR1]
  simp only [begin_oversampling, begin_divider, h1, hf1, h8, hf8]
  decide

/-- C14, amended, on the MSP430G2553 header values at 1 MHz and at 8 MHz. -/
theorem C14_both_oversampling_witness :
    ((g2553_at 1000000).F_CPU = 1000000 ∧ (g2553_at 1000000).UCOS16 = 1 ∧
      (g2553_at 8000000).F_CPU = 8000000 ∧ (g2553_at 8000000).UCOS16 = 1) ∧
    ((begin_oversampling (g2553_at 1000000) 9600 = 1 ∧
      (HardwareSerial.begin (g2553_at 1000000) 9600 State.init).UCA0MCTL &&&
        (g2553_at 1000000).UCOS16 = (g2553_at 1000000).UCOS16 ∧
      (HardwareSerial.begin (g2553_at 1000000) 9600 State.init).UCA0BR1 * 256 +
          (HardwareSerial.begin (g2553_at 1000000) 9600 State.init).UCA0BR0 =
        (((g2553_at 1000000).F_CPU <<< 4) / 9600) >>> 8) ∧
    (begin_oversampling (g2553_at 8000000) 9600 = 1 ∧
      (HardwareSerial.begin (g2553_at 8000000) 9600 State.init).UCA0MCTL &&&
        (g2553_at 8000000).UCOS16 = (g2553_at 8000000).UCOS16 ∧
      (HardwareSerial.begin (g2553_at 8000000) 9600 State.init).UCA0BR1 * 256 +
          (HardwareSerial.begin (g2553_at 8000000) 9600 State.init).UCA0BR0 =
        (((g2553_at 8000000).F_CPU <<< 4) / 9600) >>> 8)) :=
  ⟨⟨rfl, rfl, rfl, rfl⟩,
    C14_both_oversampling (g2553_at 1000000) (g2553_at 8000000) State.init rfl rfl rfl rfl⟩

/-- C15. For every byte `c` and every target: from startup, after `begin(9600)`,
`write(c)` returns 1; when the receive handler then runs with `c` in the receive
register, `available()` returns 1, `read()` returns `c` as an unsigned value (65
for the letter A) and the next `read()` returns `-1`. -/
theorem C15_end_to_end (t : Target) (c : uchar) :
    ∃ s1 : State,
      HardwareSerial.write t c (HardwareSerial.begin t 9600 State.init) = some (1, s1) ∧
      (HardwareSerial.available
        (HardwareSerial.ProcessRXInt { s1 with UCA0RXBUF := c })).1 = 1 ∧
      (HardwareSerial.read
        (HardwareSerial.available
          (HardwareSerial.ProcessRXInt { s1 with UCA0RXBUF := c })).2).1 = Int.ofNat c.val ∧
      (HardwareSerial.read
        (HardwareSerial.read
          (HardwareSerial.available
            (HardwareSerial.ProcessRXInt { s1 with UCA0RXBUF := c })).2).2).1 = -1 := by
  have hfree : ((HardwareSerial.begin t 9600 State.init).tx_buffer.head + 1) % 16 ≠
      (HardwareSerial.begin t 9600 State.init).tx_buffer.tail := by
    show (0 + 1) % 16 ≠ 0
    decide
  refine ⟨_, write_not_full t c _ hfree, ?_⟩
  apply one_byte_received
  · show (store_char c ring_buffer.init).head = 1
    rw [store_char_not_full c _ (by decide)]; rfl
  · show (store_char c ring_buffer.init).tail = 0
    rw [store_char_not_full c _ (by decide)]; rfl
  · show (store_char c ring_buffer.init).buffer 0 = c
    rw [store_char_not_full c _ (by decide)]
    show Function.update ring_buffer.init.buffer ring_buffer.init.head c 0 = c
    simp [ring_buffer.init]

/-- C16. The main context writes any list of bytes (1000 of them, say) with `write`,
one access to shared memory at a time, and the transmit-empty handler may run
between any two accesses.  Under every schedule: the bytes sent, then the queued
slots, then the byte of the call in progress, then the bytes to come are the list,
in order; when `head` is about to be stored the byte is already in its slot; once
the main context is done and the buffer is empty the bytes sent are the whole
list.  After any schedule, alternating main context and handler for seven rounds a
byte drains everything. -/
theorem C16_preemptive_stream (t : Target) (bytes : List uchar) (sched : List Actor) :
    (preemptRun t sched (Config.start bytes)).s.UCA0TXBUF ++
        (preemptRun t sched (Config.start bytes)).s.tx_buffer.queued ++
        pending (preemptRun t sched (Config.start bytes)).pc ++
        (preemptRun t sched (Config.start bytes)).todo = bytes ∧
    (∀ (c : uchar) (i : Nat), (preemptRun t sched (Config.start bytes)).pc = WritePc.publish c i →
      (preemptRun t sched (Config.start bytes)).s.tx_buffer.buffer
        (preemptRun t sched (Config.start bytes)).s.tx_buffer.head = c) ∧
    ((preemptRun t sched (Config.start bytes)).pc = WritePc.idle →
      (preemptRun t sched (Config.start bytes)).todo = [] →
      (preemptRun t sched (Config.start bytes)).s.tx_buffer.head =
        (preemptRun t sched (Config.start bytes)).s.tx_buffer.tail →
      (preemptRun t sched (Config.start bytes)).s.UCA0TXBUF = bytes) ∧
    ((preemptRun t (sched ++ roundRobin (7 * bytes.length)) (Config.start bytes)).pc =
        WritePc.idle ∧
      (preemptRun t (sched ++ roundRobin (7 * bytes.length)) (Config.start bytes)).todo = [] ∧
      (preemptRun t (sched ++ roundRobin (7 * bytes.length))
          (Config.start bytes)).s.tx_buffer.head =
        (preemptRun t (sched ++ roundRobin (7 * bytes.length))
          (Config.start bytes)).s.tx_buffer.tail ∧
      (preemptRun t (sched ++ roundRobin (7 * bytes.length)) (Config.start bytes)).s.UCA0TXBUF =
        bytes) := by
  obtain ⟨hi, hs, hwk⟩ := preemptRun_inv t sched _ (start_inv bytes)
  rw [start_stream] at hs
  rw [start_work] at hwk
  refine ⟨hs, ?_, ?_, ?_⟩
  · intro c i hp
    have := hi.2
    rw [hp] at this
    exact this.2.2
  · intro hp ht he
    rw [← done_stream _ hp ht he]
    exact hs
  · rw [preemptRun_append]
    obtain ⟨ri, rs, _⟩ := preemptRun_inv t (roundRobin (7 * bytes.length)) _ hi
    have hz := roundRobin_work t (7 * bytes.length) _ hi hwk
    obtain ⟨z1, z2, z3⟩ := work_zero _ ri hz
    refine ⟨z1, z2, z3, ?_⟩
    rw [← done_stream _ z1 z2 z3, rs]
    exact hs

/-- C17. Each index has one writer: `store_char` and `ProcessRXInt` leave `rx.tail`
(and the transmit buffer) alone; `read()` leaves `rx.head`, the stored bytes and the
transmit buffer alone; `peek()` and `available()` change nothing; `write()` leaves
`tx.tail` and the receive buffer alone; `ProcessTXInt` leaves `tx.head`, the stored
bytes and the receive buffer alone. -/
theorem C17_single_writer (t : Target) (c : uchar) (s : State) :
    (store_char c s.rx_buffer).tail = s.rx_buffer.tail ∧
    (HardwareSerial.ProcessRXInt s).rx_buffer.tail = s.rx_buffer.tail ∧
    (HardwareSerial.ProcessRXInt s).tx_buffer = s.tx_buffer ∧
    ((HardwareSerial.read s).2.rx_buffer.head = s.rx_buffer.head ∧
      (HardwareSerial.read s).2.rx_buffer.buffer = s.rx_buffer.buffer ∧
      (HardwareSerial.read s).2.tx_buffer = s.tx_buffer) ∧
    (HardwareSerial.peek s).2 = s ∧
    (HardwareSerial.available s).2 = s ∧
    (∀ r : Nat × State, HardwareSerial.write t c s = some r →
      r.2.tx_buffer.tail = s.tx_buffer.tail ∧ r.2.rx_buffer = s.rx_buffer) ∧
    ((HardwareSerial.ProcessTXInt t s).tx_buffer.head = s.tx_buffer.head ∧
      (HardwareSerial.ProcessTXInt t s).tx_buffer.buffer = s.tx_buffer.buffer ∧
      (HardwareSerial.ProcessTXInt t s).rx_buffer = s.rx_buffer) := by
  have hst2 : ∀ (c2 : uchar) (b : ring_buffer), (store_char c2 b).tail = b.tail := by
    intro c2 b
    by_cases hf : (b.head + 1) % 16 = b.tail
    · rw [store_char_full c2 b hf]
    · rw [store_char_not_full c2 b hf]
  refine ⟨hst2 _ _, hst2 _ _, rfl, ?_, ?_, rfl, ?_, ?_⟩
  · by_cases he : s.rx_buffer.head = s.rx_buffer.tail <;> simp [HardwareSerial.read, he]
  · by_cases he : s.rx_buffer.head = s.rx_buffer.tail <;> simp [HardwareSerial.peek, he]
  · intro r hr
    by_cases hf : (s.tx_buffer.head + 1) % 16 = s.tx_buffer.tail
    · rw [write_full t c s hf] at hr; exact absurd hr (by simp)
    · rw [write_not_full t c s hf] at hr
      simp only [Option.some.injEq] at hr
      rw [← hr]
      exact ⟨hst2 _ _, rfl⟩
  · by_cases he : s.tx_buffer.head = s.tx_buffer.tail <;>
      simp [HardwareSerial.ProcessTXInt, he]

/-- C18. Run on an empty transmit buffer, `ProcessTXInt` clears the enable bit and
changes neither buffer nor the bytes sent.  With the handler invoked only while the
enable bit is set and no `write` in between: given more chances than bytes are
queued, the handler takes the disabling branch exactly once, leaves the buffer
empty and the bit clear, and never takes that branch again however many more
chances it gets. -/
theorem C18_self_disable (t : Target) (s0 : State)
    (h0 : s0.tx_buffer.head = s0.tx_buffer.tail)
    (s : State) (n : Nat) (hh : s.tx_buffer.head < 16) (ht : s.tx_buffer.tail < 16)
    (hen : txie_enabled t s = true) (hn : (16 + s.tx_buffer.head - s.tx_buffer.tail) % 16 < n) :
    (txie_enabled t (HardwareSerial.ProcessTXInt t s0) = false ∧
      (HardwareSerial.ProcessTXInt t s0).tx_buffer = s0.tx_buffer ∧
      (HardwareSerial.ProcessTXInt t s0).rx_buffer = s0.rx_buffer ∧
      (HardwareSerial.ProcessTXInt t s0).UCA0TXBUF = s0.UCA0TXBUF) ∧
    ((txirqRun t n s).1 = 1 ∧ txie_enabled t (txirqRun t n s).2 = false ∧
      (txirqRun t n s).2.tx_buffer.head = (txirqRun t n s).2.tx_buffer.tail ∧
      ∀ m : Nat, (txirqRun t m (txirqRun t n s).2).1 = 0) := by
  refine ⟨⟨ProcessTXInt_empty_disables t s0 h0, ?_, ?_, ?_⟩, ?_⟩
  · simp [HardwareSerial.ProcessTXInt, h0]
  · simp [HardwareSerial.ProcessTXInt, h0]
  · simp [HardwareSerial.ProcessTXInt, h0]
  · obtain ⟨a, b, c⟩ := txirqRun_drains t n s ⟨hh, ht⟩ hen (by rw [queued_length]; exact hn)
    refine ⟨a, b, c, fun m => ?_⟩
    rw [txirqRun_disabled t m _ b]

/-- C18 on the MSP430G2553: the startup state for the empty run, and the state with one
byte queued and the interrupt enabled, given three chances. -/
theorem C18_self_disable_witness :
    (State.init.tx_buffer.head = State.init.tx_buffer.tail ∧
      tx_sample.tx_buffer.head < 16 ∧ tx_sample.tx_buffer.tail < 16 ∧
      txie_enabled msp430g2553 tx_sample = true ∧
      (16 + tx_sample.tx_buffer.head - tx_sample.tx_buffer.tail) % 16 < 3) ∧
    ((txie_enabled msp430g2553 (HardwareSerial.ProcessTXInt msp430g2553 State.init) = false ∧
      (HardwareSerial.ProcessTXInt msp430g2553 State.init).tx_buffer = State.init.tx_buffer ∧
      (HardwareSerial.ProcessTXInt msp430g2553 State.init).rx_buffer = State.init.rx_buffer ∧
      (HardwareSerial.ProcessTXInt msp430g2553 State.init).UCA0TXBUF =
        State.init.UCA0TXBUF) ∧
    ((txirqRun msp430g2553 3 tx_sample).1 = 1 ∧
      txie_enabled msp430g2553 (txirqRun msp430g2553 3 tx_sample).2 = false ∧
      (txirqRun msp430g2553 3 tx_sample).2.tx_buffer.head =
        (txirqRun msp430g2553 3 tx_sample).2.tx_buffer.tail ∧
      ∀ m : Nat, (txirqRun msp430g2553 m (txirqRun msp430g2553 3 tx_sample).2).1 = 0)) :=
  ⟨⟨rfl, by decide, by decide, by decide, by decide⟩,
    C18_self_disable msp430g2553 State.init rfl tx_sample 3 (by decide) (by decide)
      (by decide) (by decide)⟩

/-- C19, as stated, fails: at 1 MHz, `begin(9600)` holds `D = 1666` and `begin(10000)`
holds `D = 1600`; both are in oversampling mode and agree on bits 8..15 of `D`, yet
`UCA0MCTL` is written 129 in one case and 65 in the other. -/
theorem C19_counterexample :
    begin_oversampling (g2553_at 1000000) 9600 = 1 ∧
    begin_oversampling (g2553_at 1000000) 10000 = 1 ∧
    begin_divider (g2553_at 1000000) 9600 = 1666 ∧
    begin_divider (g2553_at 1000000) 10000 = 1600 ∧
    (begin_divider (g2553_at 1000000) 9600 >>> 8) % 256 =
      (begin_divider (g2553_at 1000000) 10000 >>> 8) % 256 ∧
    (HardwareSerial.begin (g2553_at 1000000) 9600 State.init).UCA0MCTL = 129 ∧
    (HardwareSerial.begin (g2553_at 1000000) 10000 State.init).UCA0MCTL = 65 := by
  decide

/-- C19, amended. For two calls of `begin` in the same mode (with the same `UCOS16`):
in oversampling mode, if the held values of `D` agree on bits 3..7, and in
non-oversampling mode, if they agree on bits 0..3, the same value is written to
`UCA0MCTL`. -/
theorem C19_modulation_bits (t1 t2 : Target) (baud1 baud2 : Nat) (s1 s2 : State)
    (hflag : t1.UCOS16 = t2.UCOS16)
    (hmode : begin_oversampling t1 baud1 = begin_oversampling t2 baud2)
    (hover : begin_oversampling t1 baud1 ≠ 0 →
      begin_divider t1 baud1 &&& 0xf8 = begin_divider t2 baud2 &&& 0xf8)
    (hlow : begin_oversampling t1 baud1 = 0 →
      begin_divider t1 baud1 &&& 0xF = begin_divider t2 baud2 &&& 0xF) :
    (HardwareSerial.begin t1 baud1 s1).UCA0MCTL = (HardwareSerial.begin t2 baud2 s2).UCA0MCTL := by
  rw [begin_UCA0MCTL, begin_UCA0MCTL, ← hmode, ← hflag]
  by_cases h : begin_oversampling t1 baud1 = 0
  · simp only [h, if_true, ne_eq, not_true_eq_false, if_false, hlow h]
  · simp only [h, if_false, ne_eq, not_false_eq_true, if_true, hover h]

/-- C19, amended, at 1 MHz for `begin(9600)` and `begin(9575)`: `D` is 1666 and 1671,
equal on bits 3..7. -/
theorem C19_modulation_bits_witness :
    ((g2553_at 1000000).UCOS16 = (g2553_at 1000000).UCOS16 ∧
      begin_oversampling (g2553_at 1000000) 9600 = begin_oversampling (g2553_at 1000000) 9575 ∧
      begin_oversampling (g2553_at 1000000) 9600 ≠ 0 ∧
      begin_divider (g2553_at 1000000) 9600 = 1666 ∧
      begin_divider (g2553_at 1000000) 9575 = 1671 ∧
      begin_divider (g2553_at 1000000) 9600 &&& 0xf8 =
        begin_divider (g2553_at 1000000) 9575 &&& 0xf8) ∧
    (HardwareSerial.begin (g2553_at 1000000) 9600 State.init).UCA0MCTL =
      (HardwareSerial.begin (g2553_at 1000000) 9575 State.init).UCA0MCTL :=
  ⟨by decide,
    C19_modulation_bits (g2553_at 1000000) (g2553_at 1000000) 9600 9575 State.init State.init
      rfl (by decide) (fun _ => by decide) (fun h => absurd h (by decide))⟩

/-- C20. `head < 16` and `tail < 16` hold for both buffers at startup and, from any state
where they hold, after `store_char`, `ProcessRXInt`, `ProcessTXInt`, `available`,
`peek`, `read`, `write` on a buffer with room, `end` and `flush` on a drained
transmit buffer, and `begin`; so the slots `buffer[head]` and `buffer[tail]` these
operations touch are inside the array. -/
theorem C20_indices_in_bounds (t : Target) (c : uchar) (baud : Nat) (s : State) (hw : s.wf) :
    State.init.wf ∧
    (s.rx_buffer.head < 16 ∧ s.rx_buffer.tail < 16 ∧ s.tx_buffer.head < 16 ∧
      s.tx_buffer.tail < 16) ∧
    (store_char c s.rx_buffer).wf ∧
    (HardwareSerial.ProcessRXInt s).wf ∧
    (HardwareSerial.ProcessTXInt t s).wf ∧
    (HardwareSerial.available s).2.wf ∧
    (HardwareSerial.peek s).2.wf ∧
    (HardwareSerial.read s).2.wf ∧
    ((s.tx_buffer.head + 1) % 16 ≠ s.tx_buffer.tail →
      ∃ r : Nat × State, HardwareSerial.write t c s = some r ∧ r.2.wf) ∧
    (s.tx_buffer.head = s.tx_buffer.tail →
      ∃ s1 : State, HardwareSerial.end_ s = some s1 ∧ s1.wf) ∧
    (s.tx_buffer.head = s.tx_buffer.tail →
      ∃ s1 : State, HardwareSerial.flush s = some s1 ∧ s1.wf) ∧
    (HardwareSerial.begin t baud s).wf := by
  obtain ⟨hrx, htx⟩ := hw
  have hrx2 := hrx
  obtain ⟨hrh, hrt⟩ := hrx2
  refine ⟨⟨ring_buffer_init_wf, ring_buffer_init_wf⟩, ⟨hrx.1, hrx.2, htx.1, htx.2⟩,
    store_char_wf c _ hrx, ⟨store_char_wf _ _ hrx, htx⟩, ?_, ⟨hrx, htx⟩, ?_, ?_, ?_, ?_, ?_,
    ⟨hrx, htx⟩⟩
  · refine ⟨?_, ProcessTXInt_wf t s htx⟩
    by_cases he : s.tx_buffer.head = s.tx_buffer.tail <;>
      simpa [HardwareSerial.ProcessTXInt, he] using hrx
  · by_cases he : s.rx_buffer.head = s.rx_buffer.tail <;>
      simp [HardwareSerial.peek, he, State.wf, hrx, htx]
  · by_cases he : s.rx_buffer.head = s.rx_buffer.tail
    · simp [HardwareSerial.read, he, State.wf, hrx, htx]
    · simp only [HardwareSerial.read, he, if_false, next_index]
      exact ⟨⟨hrh, Nat.mod_lt _ (by norm_num)⟩, htx⟩
  · intro hf
    exact ⟨_, write_not_full t c s hf, hrx, store_char_wf c _ htx⟩
  · intro hd
    refine ⟨{ s with rx_buffer := { s.rx_buffer with head := s.rx_buffer.tail } }, ?_,
      ⟨hrt, hrt⟩, htx⟩
    simp [HardwareSerial.end_, hd]
  · intro hd
    exact ⟨s, by simp [HardwareSerial.flush, hd], hrx, htx⟩

/-- C20 on the MSP430G2553 with the bytes 200 and 255 unread. -/
theorem C20_indices_in_bounds_witness :
    rx_sample.wf ∧
    (State.init.wf ∧
    (rx_sample.rx_buffer.head < 16 ∧ rx_sample.rx_buffer.tail < 16 ∧
      rx_sample.tx_buffer.head < 16 ∧ rx_sample.tx_buffer.tail < 16) ∧
    (store_char 65 rx_sample.rx_buffer).wf ∧
    (HardwareSerial.ProcessRXInt rx_sample).wf ∧
    (HardwareSerial.ProcessTXInt msp430g2553 rx_sample).wf ∧
    (HardwareSerial.available rx_sample).2.wf ∧
    (HardwareSerial.peek rx_sample).2.wf ∧
    (HardwareSerial.read rx_sample).2.wf ∧
    ((rx_sample.tx_buffer.head + 1) % 16 ≠ rx_sample.tx_buffer.tail →
      ∃ r : Nat × State, HardwareSerial.write msp430g2553 65 rx_sample = some r ∧ r.2.wf) ∧
    (rx_sample.tx_buffer.head = rx_sample.tx_buffer.tail →
      ∃ s1 : State, HardwareSerial.end_ rx_sample = some s1 ∧ s1.wf) ∧
    (rx_sample.tx_buffer.head = rx_sample.tx_buffer.tail →
      ∃ s1 : State, HardwareSerial.flush rx_sample = some s1 ∧ s1.wf) ∧
    (HardwareSerial.begin msp430g2553 9600 rx_sample).wf) :=
  ⟨⟨⟨by decide, by decide⟩, ⟨by decide, by decide⟩⟩,
    C20_indices_in_bounds msp430g2553 65 9600 rx_sample
      ⟨⟨by decide, by decide⟩, ⟨by decide, by decide⟩⟩⟩

end Energia
